import Mathlib

/-!
Verification development for the bulk file and directory operations engine of
libultrahand (src/libultra/source/path_funcs.cpp).

The filesystem is shallowly embedded as a finite tree: a node is a regular
file with a byte size, a directory with a readability flag and an ordered
list of named children (the list order models the enumeration order that
readdir returns), or an opaque entry of any other kind.  Paths are lists of
name components; the trailing-slash convention of the engine is kept in a
separate flag, and path lookups ignore that flag, matching the platform where
stat and remove tolerate a trailing separator.  Concatenating a path, "/"
and a name is modelled as appending one component (POSIX collapses repeated
separators).  The process-wide atomics abortFileOp and copyPercentage, the
byte accumulator threaded by reference, the diagnostic sink and the two
operation logs are threaded through an explicit state record; the values the
engine reads from the concurrently written abort flag, and the success of
each open attempt, are supplied by oracles indexed by a per-state counter.
Loops of the source that iterate over an explicit stack, queue or vector are
embedded with an explicit fuel parameter; theorems show enough fuel exists.
-/

namespace Ult

/-- A filesystem entry: a regular file with its byte size, a directory with a
readability flag (opendir succeeds exactly on readable directories) and its
children in enumeration order, or an entry of any other kind. -/
inductive FsTree where
  | file (size : Nat)
  | dir (readable : Bool) (children : List (String × FsTree))
  | other
deriving Repr

/-- Path components, relative to the filesystem root. -/
abbrev Comps := List String

/-- A path string as the engine receives it: its components together with
whether the string ends in a separator character. -/
structure UPath where
  comps : Comps
  dirSlash : Bool
deriving Repr, DecidableEq

/-- Kind of an entry, the information one stat call reports. -/
inductive FKind where
  | file (size : Nat)
  | dir (readable : Bool)
  | other
deriving Repr, DecidableEq

/-- Kind of a tree node. -/
def kindOf : FsTree → FKind
  | .file s => .file s
  | .dir r _ => .dir r
  | .other => .other

/-- Replace the payload of every entry called n by applying f to it. -/
def updList : List (String × FsTree) → String → (FsTree → FsTree) →
    List (String × FsTree)
  | [], _, _ => []
  | e :: es, n, f => (if e.1 = n then (e.1, f e.2) else e) :: updList es n f

/-- Remove every entry called n. -/
def delEnt : List (String × FsTree) → String → List (String × FsTree)
  | [], _ => []
  | e :: es, n => if e.1 = n then delEnt es n else e :: delEnt es n

/-- Find the first entry called n, as path resolution does. -/
def findEnt : List (String × FsTree) → String → Option (String × FsTree)
  | [], _ => none
  | e :: es, n => if e.1 = n then some e else findEnt es n

/-- Resolve a path to the subtree it denotes, if any. -/
def lookup : FsTree → Comps → Option FsTree
  | t, [] => some t
  | .dir _ cs, n :: p =>
    match findEnt cs n with
    | some e => lookup e.2 p
    | none => none
  | _, _ :: _ => none

/-- Kind of the entry a path denotes, the result of one stat call. -/
def kindAt (t : FsTree) (p : Comps) : Option FKind := (lookup t p).map kindOf

/-- Model of isFile from the source: one stat call, true exactly for a
regular file. -/
def isFile (t : FsTree) (p : Comps) : Bool :=
  match lookup t p with
  | some (.file _) => true
  | _ => false

/-- Model of isDirectory from the source: one stat call, true exactly for a
directory. -/
def isDirectory (t : FsTree) (p : Comps) : Bool :=
  match lookup t p with
  | some (.dir _ _) => true
  | _ => false

/-- Remove the entry a nonempty path denotes, together with its subtree; the
model of a successful remove or rmdir call.  A path that does not resolve
leaves the tree unchanged. -/
def eraseAt : FsTree → Comps → FsTree
  | t, [] => t
  | .dir r cs, [n] => .dir r (delEnt cs n)
  | .dir r cs, n :: p :: q => .dir r (updList cs n (fun c => eraseAt c (p :: q)))
  | t, _ :: _ => t

/-- Create or truncate the regular file a path denotes, the effect of a
successful fopen with mode wb followed by writing size bytes.  Opening fails
without touching the tree when the entry exists but is not a regular file or
when the parent chain is not all directories. -/
def setFileAt : FsTree → Comps → Nat → FsTree
  | t, [], _ => t
  | .dir r cs, [n], s =>
    match findEnt cs n with
    | some e =>
      match e.2 with
      | .file _ => .dir r (updList cs n (fun _ => .file s))
      | _ => .dir r cs
    | none => .dir r (cs ++ [(n, .file s)])
  | .dir r cs, n :: p :: q, s =>
    match findEnt cs n with
    | some _ => .dir r (updList cs n (fun c => setFileAt c (p :: q) s))
    | none => .dir r cs
  | t, _ :: _, _ => t

/-- Result of one mkdir call. -/
inductive MkdirResult where
  | ok
  | eexist
  | failed
deriving Repr, DecidableEq

/-- Model of one mkdir call: an existing entry of any kind reports eexist, a
missing or non-directory parent fails, otherwise a fresh readable directory
is inserted. -/
def mkdirAt : FsTree → Comps → FsTree × MkdirResult
  | t, [] => (t, .eexist)
  | .dir r cs, [n] =>
    if (findEnt cs n).isSome then (.dir r cs, .eexist)
    else (.dir r (cs ++ [(n, .dir true [])]), .ok)
  | .dir r cs, n :: p :: q =>
    match findEnt cs n with
    | some e =>
      let res := mkdirAt e.2 (p :: q)
      (.dir r (updList cs n (fun _ => res.1)), res.2)
    | none => (.dir r cs, .failed)
  | t, _ :: _ => (t, .failed)

mutual

/-- Number of nodes of a tree, used as a fuel bound for the iterative walks. -/
def treeSize : FsTree → Nat
  | .file _ => 1
  | .other => 1
  | .dir _ cs => 1 + forestSize cs

/-- Number of nodes of a forest. -/
def forestSize : List (String × FsTree) → Nat
  | [] => 0
  | e :: es => treeSize e.2 + forestSize es

end

mutual

/-- Sum of the sizes of the regular files the size accountant can reach:
everything below an unreadable directory contributes zero, entries of other
kinds contribute zero.  This is the specification-side description of
totalSize, written from the specification text. -/
def visBytes : FsTree → Nat
  | .file s => s
  | .other => 0
  | .dir false _ => 0
  | .dir true cs => visBytesF cs

/-- Sum of visBytes over a forest. -/
def visBytesF : List (String × FsTree) → Nat
  | [] => 0
  | e :: es => visBytes e.2 + visBytesF es

end

mutual

/-- Number of regular-file nodes anywhere in a tree. -/
def fileCount : FsTree → Nat
  | .file _ => 1
  | .other => 0
  | .dir _ cs => fileCountF cs

/-- Number of regular-file nodes in a forest. -/
def fileCountF : List (String × FsTree) → Nat
  | [] => 0
  | e :: es => fileCount e.2 + fileCountF es

end

mutual

/-- A tree is clean when it contains only regular files and readable
directories with distinct child names: the shape on which every filesystem
call of the engine succeeds, the no-structural-failure assumption of the
specification. -/
def cleanTree : FsTree → Bool
  | .file _ => true
  | .other => false
  | .dir r cs => r && decide ((cs.map Prod.fst).Nodup) && cleanForest cs

/-- Cleanliness of every tree of a forest. -/
def cleanForest : List (String × FsTree) → Bool
  | [] => true
  | e :: es => cleanTree e.2 && cleanForest es

end

mutual

/-- Child names are pairwise distinct everywhere in the tree, as on a real
filesystem. -/
def nodupTree : FsTree → Bool
  | .file _ => true
  | .other => true
  | .dir _ cs => decide ((cs.map Prod.fst).Nodup) && nodupForest cs

/-- Distinct child names everywhere in a forest. -/
def nodupForest : List (String × FsTree) → Bool
  | [] => true
  | e :: es => nodupTree e.2 && nodupForest es

end

/-- Modelled from the spec: getParentDirFromPath is defined outside the given
source file; per the specification it yields the string up to the last
separator, so a trailing-separator path keeps its components and loses the
separator, and any other path drops its last component. -/
def getParentDirFromPath (p : UPath) : Comps :=
  if p.dirSlash then p.comps else p.comps.dropLast

/-- Modelled from the spec: getNameFromPath is defined outside the given
source file; per the specification it is the base name, the last path
component. -/
def getNameFromPath (p : Comps) : String := p.getLastD ""

/-- The engine state: the filesystem tree, the process-wide copyPercentage
atomic together with the ordered list of every value stored to it, the
totalBytesCopied accumulator threaded by reference, the count of diagnostic
logMessage calls, the oracle counters for open attempts, abort-flag reads and
chunk writes, and the lines of the two operation logs. -/
structure CopySt where
  fs : FsTree
  pct : Int
  pubs : List Int
  acc : Int
  diags : Nat
  opens : Nat
  checks : Nat
  writes : Nat
  srcLog : List Comps
  destLog : List Comps
deriving Repr

/-- Store one value into copyPercentage, recording the publication. -/
def storePct (v : Int) (st : CopySt) : CopySt :=
  { st with pct := v, pubs := st.pubs ++ [v] }

/-- Oracles for the interaction of one run with its environment: whether the
i-th open attempt succeeds at the operating-system level, the value of the
abortFileOp flag at its i-th read, and whether the i-th chunk write makes
progress to completion or stalls at zero bytes. -/
structure CopyEnv where
  openOk : Nat → Bool
  abortAt : Nat → Bool
  writeOk : Nat → Bool

/-- The environment of an undisturbed run: opens succeed, the abort flag
stays clear, chunk writes complete. -/
def happyEnv : CopyEnv :=
  { openOk := fun _ => true, abortAt := fun _ => false, writeOk := fun _ => true }

/-- Model of createSingleDirectory: one mkdir call, an already existing entry
is success, any other failure is one diagnostic and nothing more. -/
def createSingleDirectory (st : CopySt) (p : Comps) : CopySt :=
  match mkdirAt st.fs p with
  | (fs', .ok) => { st with fs := fs' }
  | (_, .eexist) => st
  | (_, .failed) => { st with diags := st.diags + 1 }

/-- Model of createDirectory: after stripping the root-volume name the source
walks the path and issues one single-level creation per component boundary;
on components this creates every nonempty prefix in order. -/
def createDirectory (st : CopySt) (p : Comps) : CopySt :=
  (List.range p.length).foldl (fun s i => createSingleDirectory s (p.take (i + 1))) st

/-- One iteration of the stack-driven loop of deleteFileOrDirectory on a
nonempty stack: stat the top; on stat failure pop; a regular file is popped
and removed, logging the path when the log is open; an unreadable directory
fails its opendir, one diagnostic, pop; a directory whose enumeration finds
zero children besides dot entries is popped and removed by rmdir; a directory
with children keeps its place and pushes every child, last enumerated on top;
an entry of unknown kind is popped with one diagnostic. -/
def deleteStep (logOpen : Bool) (st : CopySt) (p : Comps) (rest : List Comps) :
    CopySt × List Comps :=
  match lookup st.fs p with
  | none => (st, rest)
  | some (.file _) =>
    ({ st with fs := eraseAt st.fs p,
               srcLog := if logOpen then st.srcLog ++ [p] else st.srcLog }, rest)
  | some (.dir false _) => ({ st with diags := st.diags + 1 }, rest)
  | some (.dir true cs) =>
    if cs.isEmpty then ({ st with fs := eraseAt st.fs p }, rest)
    else (st, (cs.map (fun e => p ++ [e.1])).reverse ++ p :: rest)
  | some .other => ({ st with diags := st.diags + 1 }, rest)

/-- The stack-driven loop of deleteFileOrDirectory, with explicit fuel; the
head of the list is the top of the stack. -/
def deleteLoop (logOpen : Bool) : Nat → CopySt → List Comps → Option CopySt
  | _, st, [] => some st
  | 0, _, _ :: _ => none
  | fuel + 1, st, p :: rest =>
    let s := deleteStep logOpen st p rest
    deleteLoop logOpen fuel s.1 s.2

/-- Model of deleteFileOrDirectory: a path without a trailing separator is
treated as a file, removed only when stat reports a regular file, silently
ignored otherwise; a trailing-separator path seeds the stack-driven postorder
deletion loop.  A supplied log path first has its parent directory created
and is opened for appending. -/
def deleteFileOrDirectory (fuel : Nat) (p : UPath) (logSource : Option Comps)
    (st₀ : CopySt) : Option CopySt :=
  let st := match logSource with
    | some ls => createDirectory st₀ ls.dropLast
    | none => st₀
  let logOpen := logSource.isSome
  if p.dirSlash = false then
    if isFile st.fs p.comps then
      some { st with fs := eraseAt st.fs p.comps,
                     srcLog := if logOpen then st.srcLog ++ [p.comps] else st.srcLog }
    else some st
  else deleteLoop logOpen fuel st [p.comps]

/-- Sizes of the regular files directly inside an enumerated directory, the
amounts the size accountant adds while scanning it. -/
def fileSizesOf : List (String × FsTree) → Nat
  | [] => 0
  | e :: es => (match e.2 with | .file s => s | _ => 0) + fileSizesOf es

/-- Paths of the subdirectories directly inside an enumerated directory, the
entries the size accountant enqueues while scanning it. -/
def subDirsOf (d : Comps) : List (String × FsTree) → List Comps
  | [] => []
  | e :: es =>
    match e.2 with
    | .dir _ _ => (d ++ [e.1]) :: subDirsOf d es
    | _ => subDirsOf d es

/-- The breadth-first loop of getTotalSize: an explicit first-in-first-out
queue of pending directory paths; a directory that cannot be opened is
skipped; every regular-file child adds its size, every subdirectory child is
enqueued. -/
def getTotalSizeLoop (t : FsTree) : Nat → List Comps → Nat → Nat
  | _, [], acc => acc
  | 0, _ :: _, acc => acc
  | fuel + 1, d :: rest, acc =>
    match lookup t d with
    | some (.dir true cs) =>
      getTotalSizeLoop t fuel (rest ++ subDirsOf d cs) (acc + fileSizesOf cs)
    | _ => getTotalSizeLoop t fuel rest acc

/-- Model of getTotalSize: a regular file reports its byte length, a
directory is walked breadth-first with an explicit queue, anything else
including a path that fails to stat reports zero.  The fuel is the node count
of the subtree, shown sufficient below. -/
def getTotalSize (t : FsTree) (p : Comps) : Nat :=
  match lookup t p with
  | some (.file s) => s
  | some (.dir r cs) => getTotalSizeLoop t (treeSize (.dir r cs)) [p] 0
  | _ => 0

/-- The chunk size of the single-file copy engine. -/
def COPY_BUFFER_SIZE : Nat := 4096 * 4

/-- The sequence of read sizes fread produces for a source of the given
length: full buffers followed by the remainder, then end of file. -/
def chunkList : Nat → List Nat
  | 0 => []
  | s + 1 =>
    min COPY_BUFFER_SIZE (s + 1) :: chunkList (s + 1 - min COPY_BUFFER_SIZE (s + 1))
termination_by s => s
decreasing_by simp [COPY_BUFFER_SIZE]

/-- How one copySingleFile call returned. -/
inductive CopyStatus where
  | completed
  | openGaveUp
  | aborted
  | writeError
deriving Repr, DecidableEq

/-- The open-retry loop of copySingleFile: each iteration opens the source
for reading and the destination for writing; a failed pair closes both, logs
one diagnostic and retries, and once the retry count exceeds ten the call
logs a final diagnostic and gives up.  The structural argument ok states
whether the filesystem permits the pair of opens at all; the oracle models
transient operating-system failures on top of it. -/
def openLoop (env : CopyEnv) (ok : Bool) : Nat → Nat → CopySt → CopySt × Bool
  | 0, _, st => (st, false)
  | fuel + 1, retryCount, st =>
    let good := ok && env.openOk st.opens
    let st1 := { st with opens := st.opens + 1 }
    if good then (st1, true)
    else
      let st2 := { st1 with diags := st1.diags + 1 }
      if retryCount + 1 > 10 then ({ st2 with diags := st2.diags + 1 }, false)
      else openLoop env ok fuel (retryCount + 1) st2

/-- The transfer loop of copySingleFile over the read chunks.  Before writing
a chunk the abort flag is read; if set, the partial destination is removed,
minus one is published and the call returns.  A chunk write either completes,
possibly after retries of short writes inside the source loop, or stalls at
zero progress, which removes the partial destination, publishes minus one and
returns.  A fully written chunk adds its byte count to the shared accumulator
and, when a positive total size hint was supplied, publishes the truncated
percentage of accumulated bytes over the total. -/
def chunkLoop (env : CopyEnv) (toFile : Comps) (totalSize : Int) :
    List Nat → Nat → CopySt → CopySt × CopyStatus
  | [], _, st => (st, .completed)
  | c :: rest, written, st =>
    if env.abortAt st.checks then
      (storePct (-1) { st with checks := st.checks + 1, fs := eraseAt st.fs toFile },
       .aborted)
    else
      let st1 := { st with checks := st.checks + 1 }
      if env.writeOk st1.writes then
        let st2 := { st1 with writes := st1.writes + 1,
                              fs := setFileAt st1.fs toFile (written + c),
                              acc := st1.acc + c }
        let st3 := if totalSize > 0 then storePct ((100 * st2.acc).tdiv totalSize) st2 else st2
        chunkLoop env toFile totalSize rest (written + c) st3
      else
        (storePct (-1) { st1 with writes := st1.writes + 1, diags := st1.diags + 1,
                                  fs := eraseAt st1.fs toFile }, .writeError)

/-- Whether the filesystem lets the pair of opens of copySingleFile succeed:
the source must be a regular file, and the destination must be a regular
file to truncate or absent with a directory parent to create into. -/
def openPairOk (fs : FsTree) (fromFile toFile : Comps) : Bool :=
  isFile fs fromFile &&
    (match lookup fs toFile with
     | some (.file _) => true
     | some _ => false
     | none =>
       match lookup fs toFile.dropLast with
       | some (.dir _ _) => true
       | _ => false)

/-- Opening an optional operation log for appending first creates the parent
directory of the log path. -/
def openLogDir (l : Option Comps) (st : CopySt) : CopySt :=
  match l with
  | some ls => createDirectory st ls.dropLast
  | none => st

/-- On successful completion the source path is appended to the source log
and the destination path to the destination log, each only when supplied. -/
def appendLogLines (logSrc logDst : Option Comps) (fromFile toFile : Comps)
    (st : CopySt) : CopySt :=
  let st1 := match logSrc with
    | some _ => { st with srcLog := st.srcLog ++ [fromFile] }
    | none => st
  match logDst with
  | some _ => { st1 with destLog := st1.destLog ++ [toFile] }
  | none => st1

/-- The byte length fread will see for the source path, read after the
destination was truncated, so that copying a file onto itself reads the
truncated length. -/
def srcSizeOf (fs : FsTree) (fromFile : Comps) : Nat :=
  match lookup fs fromFile with
  | some (.file s) => s
  | _ => 0

/-- Model of copySingleFile: create the parent directory of the destination,
run the bounded open-retry loop, truncate the destination, open the optional
logs, transfer chunk by chunk, and on completion append the source path to
the source log and the destination path to the destination log. -/
def copySingleFile (env : CopyEnv) (fromFile toFile : Comps) (totalSize : Int)
    (logSrc logDst : Option Comps) (st₀ : CopySt) : CopySt × CopyStatus :=
  let st := createDirectory st₀ toFile.dropLast
  let r := openLoop env (openPairOk st.fs fromFile toFile) 11 0 st
  if r.2 = false then (r.1, .openGaveUp)
  else
    let st1 := { r.1 with fs := setFileAt r.1.fs toFile 0 }
    let st3 := openLogDir logDst (openLogDir logSrc st1)
    let res := chunkLoop env toFile totalSize (chunkList (srcSizeOf st1.fs fromFile)) 0 st3
    match res.2 with
    | .completed => (appendLogLines logSrc logDst fromFile toFile res.1, .completed)
    | s => (res.1, s)

/-- The traversal loop of copyFileOrDirectory: an explicit vector of pending
source and destination pairs consumed by an advancing index, which behaves as
a first-in-first-out queue.  Before each item the abort flag is read; if set,
minus one is published and the call returns early, reported by the Boolean of
the result.  A regular file is copied through the single-file engine into the
parent of its pending destination joined with its base name, followed by a
publication of the aggregate percentage when a positive total was supplied; a
readable directory appends all its children to the vector; stat failures and
unreadable directories log one diagnostic; entries of other kinds are
skipped silently. -/
def copyLoop (env : CopyEnv) (totalSize : Int) (logSrc logDst : Option Comps) :
    Nat → List (Comps × UPath) → CopySt → Option (CopySt × Bool)
  | _, [], st => some (st, false)
  | 0, _ :: _, _ => none
  | fuel + 1, (curFrom, curTo) :: rest, st =>
    if env.abortAt st.checks then
      some (storePct (-1) { st with checks := st.checks + 1 }, true)
    else
      let st0 := { st with checks := st.checks + 1 }
      match lookup st0.fs curFrom with
      | none =>
        copyLoop env totalSize logSrc logDst fuel rest { st0 with diags := st0.diags + 1 }
      | some (.file _) =>
        let filename := getNameFromPath curFrom
        let toFilePath := getParentDirFromPath curTo ++ [filename]
        let st1 := createDirectory st0 toFilePath.dropLast
        let st2 := (copySingleFile env curFrom toFilePath totalSize logSrc logDst st1).1
        let st3 := if totalSize > 0 then storePct ((st2.acc * 100).tdiv totalSize) st2 else st2
        copyLoop env totalSize logSrc logDst fuel rest st3
      | some (.dir false _) =>
        copyLoop env totalSize logSrc logDst fuel rest { st0 with diags := st0.diags + 1 }
      | some (.dir true cs) =>
        copyLoop env totalSize logSrc logDst fuel
          (rest ++ cs.map (fun e => (curFrom ++ [e.1], UPath.mk (curTo.comps ++ [e.1]) false)))
          st0
      | some .other => copyLoop env totalSize logSrc logDst fuel rest st0

/-- Model of copyFileOrDirectory.  A top-level call, recognized in the source
by a null accumulator pointer, computes the total size itself and starts a
fresh local accumulator.  A destination without a trailing separator goes
straight to the single-file engine and returns, skipping the final
publication.  Otherwise the destination directory is created, the traversal
loop runs, and only a top-level call that was not aborted publishes one
hundred at the end. -/
def copyFileOrDirectory (env : CopyEnv) (fuel : Nat) (fromP toP : UPath)
    (isTop : Bool) (totalSize₀ : Int) (logSrc logDst : Option Comps)
    (st₀ : CopySt) : Option CopySt :=
  let totalSize := if isTop then (getTotalSize st₀.fs fromP.comps : Int) else totalSize₀
  let st := if isTop then { st₀ with acc := 0 } else st₀
  if toP.dirSlash = false then
    let st1 := createDirectory st (getParentDirFromPath toP)
    some (copySingleFile env fromP.comps toP.comps totalSize logSrc logDst st1).1
  else
    let st1 := createDirectory st toP.comps
    match copyLoop env totalSize logSrc logDst fuel [(fromP.comps, toP)] st1 with
    | none => none
    | some (st2, early) => some (if isTop && !early then storePct 100 st2 else st2)

/-- The per-match loop of copyFileOrDirectoryByPattern: every match is copied
through a nested, non-top-level call sharing one accumulator and the
precomputed combined total. -/
def copyByPatternGo (env : CopyEnv) (fuel : Nat) (toDirectory : UPath)
    (totalSize : Int) (logSrc logDst : Option Comps) :
    List UPath → CopySt → Option CopySt
  | [], st => some st
  | m :: ms, st =>
    match copyFileOrDirectory env fuel m toDirectory false totalSize logSrc logDst st with
    | none => none
    | some st' => copyByPatternGo env fuel toDirectory totalSize logSrc logDst ms st'

/-- Model of copyFileOrDirectoryByPattern: the expansion of the pattern is
supplied as a list, the combined total size across all matchList is computed
first from the untouched filesystem, then every match is copied sequentially
with one shared byte accumulator starting at zero.  The call itself never
publishes a percentage. -/
def copyFileOrDirectoryByPattern (env : CopyEnv) (fuel : Nat)
    (matchList : List UPath) (toDirectory : UPath) (logSrc logDst : Option Comps)
    (st₀ : CopySt) : Option CopySt :=
  let totalSize : Int :=
    matchList.foldl (fun a m => a + (getTotalSize st₀.fs m.comps : Int)) 0
  copyByPatternGo env fuel toDirectory totalSize logSrc logDst matchList
    { st₀ with acc := 0 }

/-- The per-file loop of mirrorFiles.  The corresponding target path replaces
the source-directory prefix of each listed path by the target directory, as
the substring arithmetic of the source does when every listed path extends
the source directory.  Delete mode deletes the corresponding target; copy
mode copies the source to the corresponding target unless the two paths are
equal.  The list of performed copy destinations is returned alongside the
state. -/
def mirrorGo (env : CopyEnv) (fuel : Nat) (sourcePath targetPath : UPath)
    (mode : String) (totalSize : Int) :
    List UPath → CopySt → List Comps → Option (CopySt × List Comps)
  | [], st, copies => some (st, copies)
  | p :: ps, st, copies =>
    let updated := targetPath.comps ++ p.comps.drop sourcePath.comps.length
    if mode = "delete" then
      match deleteFileOrDirectory fuel (UPath.mk updated p.dirSlash) none st with
      | none => none
      | some st' => mirrorGo env fuel sourcePath targetPath mode totalSize ps st' copies
    else if mode = "copy" then
      if p.comps ≠ updated then
        match copyFileOrDirectory env fuel p (UPath.mk updated p.dirSlash) false
            totalSize none none st with
        | none => none
        | some st' =>
          mirrorGo env fuel sourcePath targetPath mode totalSize ps st' (copies ++ [updated])
      else mirrorGo env fuel sourcePath targetPath mode totalSize ps st copies
    else mirrorGo env fuel sourcePath targetPath mode totalSize ps st copies

/-- Model of mirrorFiles: the flat recursive listing of the source directory
is supplied as a list; copy mode first sums the total size over the listed
paths whose corresponding target differs, then the per-file loop runs with a
fresh accumulator. -/
def mirrorFiles (env : CopyEnv) (fuel : Nat) (listing : List UPath)
    (sourcePath targetPath : UPath) (mode : String) (st₀ : CopySt) :
    Option (CopySt × List Comps) :=
  let totalSize : Int :=
    if mode = "copy" then
      listing.foldl
        (fun a p =>
          if p.comps ≠ targetPath.comps ++ p.comps.drop sourcePath.comps.length then
            a + (getTotalSize st₀.fs p.comps : Int)
          else a) 0
    else 0
  mirrorGo env fuel sourcePath targetPath mode totalSize listing
    { st₀ with acc := 0 } []

/-- Model of createFlagFiles: an empty expansion returns before anything is
touched; otherwise the output directory is created and one empty file named
after the base name of each match is created inside it, skipping a match with
an empty base name. -/
def createFlagFiles (matchList : List UPath) (outputDir : UPath) (st : CopySt) : CopySt :=
  if matchList.isEmpty then st
  else
    let st1 := createDirectory st outputDir.comps
    matchList.foldl
      (fun s m =>
        let baseName := getNameFromPath m.comps
        if baseName = "" then s
        else { s with fs := setFileAt s.fs (outputDir.comps ++ [baseName]) 0 }) st1

/-- One transition of the deletion loop viewed as a step of a state machine
over a state and a stack; the loop has finished when the stack is empty. -/
def delNext (logOpen : Bool) (s : CopySt × List Comps) : Option (CopySt × List Comps) :=
  match s.2 with
  | [] => none
  | p :: rest => some (deleteStep logOpen s.1 p rest)

/-- Reachability under the deletion loop transitions. -/
def DelSteps (logOpen : Bool) : CopySt × List Comps → CopySt × List Comps → Prop :=
  Relation.ReflTransGen (fun s s' => delNext logOpen s = some s')

/-- The specification-side value of the size accountant, written from the
specification text: the byte length of a regular file, the visible byte sum
of a directory, zero otherwise. -/
def specTotalSize (t : FsTree) (p : Comps) : Nat :=
  match lookup t p with
  | some τ => visBytes τ
  | none => 0

/-- A small concrete state over a filesystem holding one directory with one
file, used by the concrete witnesses below. -/
def demoSt : CopySt :=
  { fs := .dir true [("d", .dir true [("f.txt", .file 5), ("big.bin", .file 40000)])]
    pct := -1, pubs := [], acc := 0, diags := 0, opens := 0, checks := 0
    writes := 0, srcLog := [], destLog := [] }

/-- An environment whose abort flag follows the given read oracle while
opens succeed and writes complete. -/
def abortEnv (g : Nat → Bool) : CopyEnv :=
  { openOk := fun _ => true, abortAt := g, writeOk := fun _ => true }

/-- An environment in which every open attempt fails at the operating-system
level while nothing else is disturbed. -/
def allOpenFailEnv : CopyEnv :=
  { openOk := fun _ => false, abortAt := fun _ => false, writeOk := fun _ => true }

/-- A concrete tree exercising files, readable and unreadable directories and
an entry of other kind, used by the size-accountant witness. -/
def sizeDemoTree : FsTree :=
  .dir true
    [("a", .file 3),
     ("b", .dir true
        [("c", .file 4), ("u", .dir false [("hid", .file 100)]), ("s", .other)]),
     ("z", .other)]

/-- Sum of the specification-side sizes over a queue of paths. -/
def qsum : FsTree → List Comps → Nat
  | _, [] => 0
  | t, d :: q => specTotalSize t d + qsum t q

/-- Fuel requirement of the breadth-first loop: the node count of the subtree
below every queued path. -/
def qneed : FsTree → List Comps → Nat
  | _, [] => 0
  | t, d :: q =>
    (match lookup t d with | some τ => treeSize τ | none => 0) + qneed t q

/-- Partial sums of a chunk sequence on top of a starting accumulator. -/
def prefixSums (acc : Int) : List Nat → List Int
  | [] => []
  | c :: rest => (acc + c) :: prefixSums (acc + c) rest

mutual

/-- Relative paths of the regular files strictly inside a directory tree. -/
def filePathsUnder : FsTree → List Comps
  | .dir _ cs => filePathsUnderF cs
  | _ => []

/-- Relative file paths contributed by a forest of named children. -/
def filePathsUnderF : List (String × FsTree) → List Comps
  | [] => []
  | e :: es =>
    (match e.2 with
     | .file _ => [[e.1]]
     | .dir _ _ => (filePathsUnder e.2).map (fun r => e.1 :: r)
     | .other => []) ++ filePathsUnderF es

end

/-- The destination file paths one match of a batch copy will write: a
regular-file match lands at its base name inside the destination, a directory
match mirrors its inner file paths below the destination. -/
def destFilesOf (destRoot : Comps) (m : Comps) (τ : FsTree) : List Comps :=
  match τ with
  | .file _ => [destRoot ++ [m.getLastD ""]]
  | .dir _ _ => (filePathsUnder τ).map (fun r => destRoot ++ r)
  | .other => []

mutual

/-- Depth of a tree in nodes along the longest chain, used to state the
depth requirement of the postorder-deletion scenario. -/
def depth : FsTree → Nat
  | .file _ => 1
  | .other => 1
  | .dir _ cs => 1 + depthF cs

/-- Largest depth of a tree of a forest. -/
def depthF : List (String × FsTree) → Nat
  | [] => 0
  | e :: es => max (depth e.2) (depthF es)

end

/-- A state over a depth-three directory tree, used by the postorder-deletion
witness. -/
def delDemoSt : CopySt :=
  { fs := .dir true [("a", .dir true [("b", .dir true [("c", .file 7)])])]
    pct := -1, pubs := [], acc := 0, diags := 0, opens := 0, checks := 0
    writes := 0, srcLog := [], destLog := [] }

theorem findEnt_updList_ne {cs : List (String × FsTree)} {n m : String}
    (f : FsTree → FsTree) (h : m ≠ n) : findEnt (updList cs n f) m = findEnt cs m := by
  induction cs with
  | nil => rfl
  | cons e es ih =>
    by_cases he : e.1 = n
    · have hme : e.1 ≠ m := by rw [he]; exact fun hh => h hh.symm
      simp [updList, findEnt, he, hme, ih, Ne.symm h]
    · simp [updList, findEnt, he, ih]

theorem findEnt_updList_self {cs : List (String × FsTree)} {n : String}
    (f : FsTree → FsTree) :
    findEnt (updList cs n f) n = (findEnt cs n).map (fun e => (e.1, f e.2)) := by
  induction cs with
  | nil => rfl
  | cons e es ih =>
    by_cases he : e.1 = n
    · simp [updList, findEnt, he]
    · simp [updList, findEnt, he, ih]

theorem findEnt_delEnt_ne {cs : List (String × FsTree)} {n m : String} (h : m ≠ n) :
    findEnt (delEnt cs n) m = findEnt cs m := by
  induction cs with
  | nil => rfl
  | cons e es ih =>
    by_cases he : e.1 = n
    · have hme : e.1 ≠ m := by rw [he]; exact fun hh => h hh.symm
      simp [delEnt, findEnt, he, hme, ih, Ne.symm h]
    · simp [delEnt, findEnt, he, ih]

theorem findEnt_delEnt_self {cs : List (String × FsTree)} {n : String} :
    findEnt (delEnt cs n) n = none := by
  induction cs with
  | nil => rfl
  | cons e es ih =>
    by_cases he : e.1 = n
    · simp [delEnt, he, ih]
    · simp [delEnt, findEnt, he, ih]

theorem findEnt_append_ne {cs : List (String × FsTree)} {n m : String} {t : FsTree}
    (h : m ≠ n) : findEnt (cs ++ [(n, t)]) m = findEnt cs m := by
  induction cs with
  | nil => simp [findEnt, Ne.symm h]
  | cons e es ih =>
    by_cases hm : e.1 = m
    · simp [findEnt, hm]
    · simp [findEnt, hm, ih]

theorem findEnt_append_self {cs : List (String × FsTree)} {n : String} {t : FsTree}
    (h : findEnt cs n = none) : findEnt (cs ++ [(n, t)]) n = some (n, t) := by
  induction cs with
  | nil => simp [findEnt]
  | cons e es ih =>
    by_cases he : e.1 = n
    · simp [findEnt, he] at h
    · simp [findEnt, he] at h ⊢
      exact ih h

theorem delEnt_updList {cs : List (String × FsTree)} {n : String} (f : FsTree → FsTree) :
    delEnt (updList cs n f) n = delEnt cs n := by
  induction cs with
  | nil => rfl
  | cons e es ih =>
    by_cases he : e.1 = n
    · simp [updList, delEnt, he, ih]
    · simp [updList, delEnt, he, ih]

theorem updList_updList {cs : List (String × FsTree)} {n : String}
    (f g : FsTree → FsTree) :
    updList (updList cs n f) n g = updList cs n (fun c => g (f c)) := by
  induction cs with
  | nil => rfl
  | cons e es ih =>
    by_cases he : e.1 = n
    · simp [updList, he, ih]
    · simp [updList, he, ih]

theorem updList_congr {cs : List (String × FsTree)} {n : String}
    {f g : FsTree → FsTree} (h : ∀ c, f c = g c) : updList cs n f = updList cs n g := by
  induction cs with
  | nil => rfl
  | cons e es ih =>
    by_cases he : e.1 = n
    · simp [updList, he, ih, h e.2]
    · simp [updList, he, ih]

theorem lookup_append (t : FsTree) (a b : Comps) :
    lookup t (a ++ b) = (lookup t a).bind (fun u => lookup u b) := by
  induction a generalizing t with
  | nil => simp [lookup]
  | cons n a ih =>
    cases t with
    | file s => simp [lookup]
    | other => simp [lookup]
    | dir r cs =>
      simp only [List.cons_append, lookup]
      cases findEnt cs n with
      | none => simp
      | some e => simp [ih]

/-- Claim C10: with an empty wildcard expansion, createFlagFiles returns
before creating the output directory or any file, leaving the state, in
particular the filesystem, completely unchanged. -/
theorem createFlagFiles_empty_frame (outputDir : UPath) (st : CopySt) :
    createFlagFiles [] outputDir st = st := rfl

/-- Claim C9: a path argument without a trailing separator is treated as a
file unconditionally: when it does not name an existing regular file, for
example when it names a directory, deleteFileOrDirectory returns without
deleting anything and without any diagnostic, leaving the whole state, in
particular the filesystem, unchanged. -/
theorem deleteFileOrDirectory_nonslash_frame (fuel : Nat) (p : UPath) (st : CopySt)
    (hs : p.dirSlash = false) (hf : isFile st.fs p.comps = false) :
    deleteFileOrDirectory fuel p none st = some st := by
  simp [deleteFileOrDirectory, hs, hf]

/-- Witness for claim C9 at a concrete input: the path names an existing
directory but carries no trailing separator, and the call changes nothing. -/
theorem deleteFileOrDirectory_nonslash_frame_witness :
    (UPath.mk ["d"] false).dirSlash = false ∧
    isFile demoSt.fs ["d"] = false ∧
    deleteFileOrDirectory 7 (UPath.mk ["d"] false) none demoSt = some demoSt :=
  ⟨rfl, rfl, deleteFileOrDirectory_nonslash_frame 7 (UPath.mk ["d"] false) demoSt rfl rfl⟩

theorem lookup_eraseAt_self : ∀ (p : Comps) (t : FsTree), p ≠ [] →
    lookup (eraseAt t p) p = none
  | [], _, h => absurd rfl h
  | [n], t, _ => by
    cases t with
    | file s => rfl
    | other => rfl
    | dir r cs => simp [eraseAt, lookup, findEnt_delEnt_self]
  | n :: p1 :: p2, t, _ => by
    cases t with
    | file s => rfl
    | other => rfl
    | dir r cs =>
      simp only [eraseAt, lookup, findEnt_updList_self]
      cases hfe : findEnt cs n with
      | none => simp
      | some e => simpa using lookup_eraseAt_self (p1 :: p2) e.2 (by simp)

theorem kindAt_eraseAt_of_not_pre : ∀ (p q : Comps) (t : FsTree),
    ¬ p <+: q → kindAt (eraseAt t p) q = kindAt t q
  | [], q, _, h => absurd List.nil_prefix h
  | [n], q, t, h => by
    cases t with
    | file s => rfl
    | other => rfl
    | dir r cs =>
      cases q with
      | nil => rfl
      | cons m q' =>
        have hmn : m ≠ n := by
          rintro rfl
          exact h ⟨q', rfl⟩
        simp [eraseAt, kindAt, lookup, findEnt_delEnt_ne hmn]
  | n :: p1 :: p2, q, t, h => by
    cases t with
    | file s => rfl
    | other => rfl
    | dir r cs =>
      cases q with
      | nil => rfl
      | cons m q' =>
        by_cases hmn : n = m
        · subst hmn
          have hpq : ¬ (p1 :: p2) <+: q' := fun hh =>
            h (List.cons_prefix_cons.mpr ⟨rfl, hh⟩)
          simp only [eraseAt, kindAt, lookup, findEnt_updList_self]
          cases hfe : findEnt cs n with
          | none => simp
          | some e =>
            simpa [kindAt] using kindAt_eraseAt_of_not_pre (p1 :: p2) q' e.2 hpq
        · simp [eraseAt, kindAt, lookup, findEnt_updList_ne _ (Ne.symm hmn)]

theorem lookup_eraseAt_incomp : ∀ (p q : Comps) (t : FsTree),
    ¬ p <+: q → ¬ q <+: p → lookup (eraseAt t p) q = lookup t q
  | [], q, _, h, _ => absurd List.nil_prefix h
  | _ :: _, [], _, _, h' => absurd List.nil_prefix h'
  | [n], m :: q', t, h, _ => by
    cases t with
    | file s => rfl
    | other => rfl
    | dir r cs =>
      have hmn : m ≠ n := by
        rintro rfl
        exact h ⟨q', rfl⟩
      simp [eraseAt, lookup, findEnt_delEnt_ne hmn]
  | n :: p1 :: p2, m :: q', t, h, h' => by
    cases t with
    | file s => rfl
    | other => rfl
    | dir r cs =>
      by_cases hmn : n = m
      · subst hmn
        have hpq : ¬ (p1 :: p2) <+: q' := fun hh =>
          h (List.cons_prefix_cons.mpr ⟨rfl, hh⟩)
        have hqp : ¬ q' <+: (p1 :: p2) := fun hh =>
          h' (List.cons_prefix_cons.mpr ⟨rfl, hh⟩)
        simp only [eraseAt, lookup, findEnt_updList_self]
        cases hfe : findEnt cs n with
        | none => simp
        | some e => simpa using lookup_eraseAt_incomp (p1 :: p2) q' e.2 hpq hqp
      · simp [eraseAt, lookup, findEnt_updList_ne _ (Ne.symm hmn)]

theorem lookup_setFileAt_incomp : ∀ (p q : Comps) (t : FsTree) (s : Nat),
    ¬ p <+: q → ¬ q <+: p → lookup (setFileAt t p s) q = lookup t q
  | [], q, _, _, h, _ => absurd List.nil_prefix h
  | _ :: _, [], _, _, _, h' => absurd List.nil_prefix h'
  | [n], m :: q', t, s, h, _ => by
    cases t with
    | file sz => rfl
    | other => rfl
    | dir r cs =>
      have hmn : m ≠ n := by
        rintro rfl
        exact h ⟨q', rfl⟩
      cases hfe : findEnt cs n with
      | none => simp [setFileAt, lookup, hfe, findEnt_append_ne hmn]
      | some e =>
        cases e2 : e.2 with
        | file sz2 => simp [setFileAt, lookup, hfe, e2, findEnt_updList_ne _ hmn]
        | dir r2 cs2 => simp [setFileAt, hfe, e2]
        | other => simp [setFileAt, hfe, e2]
  | n :: p1 :: p2, m :: q', t, s, h, h' => by
    cases t with
    | file sz => rfl
    | other => rfl
    | dir r cs =>
      by_cases hmn : n = m
      · subst hmn
        have hpq : ¬ (p1 :: p2) <+: q' := fun hh =>
          h (List.cons_prefix_cons.mpr ⟨rfl, hh⟩)
        have hqp : ¬ q' <+: (p1 :: p2) := fun hh =>
          h' (List.cons_prefix_cons.mpr ⟨rfl, hh⟩)
        cases hfe : findEnt cs n with
        | none => simp [setFileAt, hfe]
        | some e =>
          simp only [setFileAt, hfe, lookup, findEnt_updList_self]
          simpa using lookup_setFileAt_incomp (p1 :: p2) q' e.2 s hpq hqp
      · cases hfe : findEnt cs n with
        | none => simp [setFileAt, hfe]
        | some e =>
          simp [setFileAt, hfe, lookup, findEnt_updList_ne _ (Ne.symm hmn)]

theorem lookup_mkdirAt_incomp : ∀ (p q : Comps) (t : FsTree),
    ¬ p <+: q → ¬ q <+: p → lookup (mkdirAt t p).1 q = lookup t q
  | [], q, _, h, _ => absurd List.nil_prefix h
  | _ :: _, [], _, _, h' => absurd List.nil_prefix h'
  | [n], m :: q', t, h, _ => by
    cases t with
    | file sz => rfl
    | other => rfl
    | dir r cs =>
      have hmn : m ≠ n := by
        rintro rfl
        exact h ⟨q', rfl⟩
      by_cases hfe : (findEnt cs n).isSome
      · simp [mkdirAt, hfe]
      · simp [mkdirAt, hfe, lookup, findEnt_append_ne hmn]
  | n :: p1 :: p2, m :: q', t, h, h' => by
    cases t with
    | file sz => rfl
    | other => rfl
    | dir r cs =>
      by_cases hmn : n = m
      · subst hmn
        have hpq : ¬ (p1 :: p2) <+: q' := fun hh =>
          h (List.cons_prefix_cons.mpr ⟨rfl, hh⟩)
        have hqp : ¬ q' <+: (p1 :: p2) := fun hh =>
          h' (List.cons_prefix_cons.mpr ⟨rfl, hh⟩)
        cases hfe : findEnt cs n with
        | none => simp [mkdirAt, hfe]
        | some e =>
          simp only [mkdirAt, hfe, lookup, findEnt_updList_self]
          simpa using lookup_mkdirAt_incomp (p1 :: p2) q' e.2 hpq hqp
      · cases hfe : findEnt cs n with
        | none => simp [mkdirAt, hfe]
        | some e =>
          simp [mkdirAt, hfe, lookup, findEnt_updList_ne _ (Ne.symm hmn)]

theorem kindAt_setFileAt_ne : ∀ (p q : Comps) (t : FsTree) (s : Nat),
    q ≠ p → kindAt (setFileAt t p s) q = kindAt t q
  | [], _, t, _, _ => by cases t <;> rfl
  | [n], q, t, s, h => by
    cases t with
    | file sz => rfl
    | other => rfl
    | dir r cs =>
      cases q with
      | nil =>
        cases hfe : findEnt cs n with
        | none => simp [setFileAt, hfe, kindAt, lookup, kindOf]
        | some e => cases e2 : e.2 <;> simp [setFileAt, hfe, e2, kindAt, lookup, kindOf]
      | cons m q' =>
        by_cases hmn : m = n
        · subst hmn
          have hq' : q' ≠ [] := by rintro rfl; exact h rfl
          cases hfe : findEnt cs m with
          | none =>
            cases q' with
            | nil => exact absurd rfl hq'
            | cons z zs =>
              simp [setFileAt, hfe, kindAt, lookup, findEnt_append_self hfe]
          | some e =>
            cases e2 : e.2 with
            | file sz2 =>
              cases q' with
              | nil => exact absurd rfl hq'
              | cons z zs =>
                simp [setFileAt, hfe, e2, kindAt, lookup, findEnt_updList_self]
            | dir r2 cs2 => simp [setFileAt, hfe, e2]
            | other => simp [setFileAt, hfe, e2]
        · cases hfe : findEnt cs n with
          | none => simp [setFileAt, hfe, kindAt, lookup, findEnt_append_ne hmn]
          | some e =>
            cases e2 : e.2 with
            | file sz2 =>
              simp [setFileAt, hfe, e2, kindAt, lookup, findEnt_updList_ne _ hmn]
            | dir r2 cs2 => simp [setFileAt, hfe, e2]
            | other => simp [setFileAt, hfe, e2]
  | n :: p1 :: p2, q, t, s, h => by
    cases t with
    | file sz => rfl
    | other => rfl
    | dir r cs =>
      cases q with
      | nil =>
        cases hfe : findEnt cs n with
        | none => simp [setFileAt, hfe]
        | some e => simp [setFileAt, hfe, kindAt, lookup, kindOf]
      | cons m q' =>
        by_cases hmn : n = m
        · subst hmn
          have hq' : q' ≠ p1 :: p2 := fun hh => h (by rw [hh])
          cases hfe : findEnt cs n with
          | none => simp [setFileAt, hfe]
          | some e =>
            simp only [setFileAt, hfe, kindAt, lookup, findEnt_updList_self]
            simpa [kindAt] using kindAt_setFileAt_ne (p1 :: p2) q' e.2 s hq'
        · cases hfe : findEnt cs n with
          | none => simp [setFileAt, hfe]
          | some e =>
            simp [setFileAt, hfe, kindAt, lookup, findEnt_updList_ne _ (Ne.symm hmn)]

theorem kindAt_mkdirAt_ne : ∀ (p q : Comps) (t : FsTree),
    q ≠ p → kindAt (mkdirAt t p).1 q = kindAt t q
  | [], _, t, _ => by cases t <;> rfl
  | [n], q, t, h => by
    cases t with
    | file sz => rfl
    | other => rfl
    | dir r cs =>
      cases q with
      | nil =>
        by_cases hfe : (findEnt cs n).isSome
        · simp [mkdirAt, hfe]
        · simp [mkdirAt, hfe, kindAt, lookup, kindOf]
      | cons m q' =>
        by_cases hmn : m = n
        · subst hmn
          have hq' : q' ≠ [] := by rintro rfl; exact h rfl
          by_cases hfe : (findEnt cs m).isSome
          · simp [mkdirAt, hfe]
          · have hnone : findEnt cs m = none := by
              cases hx : findEnt cs m with
              | none => rfl
              | some e => rw [hx] at hfe; simp at hfe
            cases q' with
            | nil => exact absurd rfl hq'
            | cons z zs =>
              simp [mkdirAt, hfe, kindAt, lookup, findEnt, findEnt_append_self hnone, hnone]
        · by_cases hfe : (findEnt cs n).isSome
          · simp [mkdirAt, hfe]
          · have hnone : findEnt cs n = none := by
              cases hx : findEnt cs n with
              | none => rfl
              | some e => rw [hx] at hfe; simp at hfe
            simp [mkdirAt, hfe, kindAt, lookup, findEnt_append_ne hmn]
  | n :: p1 :: p2, q, t, h => by
    cases t with
    | file sz => rfl
    | other => rfl
    | dir r cs =>
      cases q with
      | nil =>
        cases hfe : findEnt cs n with
        | none => simp [mkdirAt, hfe]
        | some e => simp [mkdirAt, hfe, kindAt, lookup, kindOf]
      | cons m q' =>
        by_cases hmn : n = m
        · subst hmn
          have hq' : q' ≠ p1 :: p2 := fun hh => h (by rw [hh])
          cases hfe : findEnt cs n with
          | none => simp [mkdirAt, hfe]
          | some e =>
            simp only [mkdirAt, hfe, kindAt, lookup, findEnt_updList_self]
            simpa [kindAt] using kindAt_mkdirAt_ne (p1 :: p2) q' e.2 hq'
        · cases hfe : findEnt cs n with
          | none => simp [mkdirAt, hfe]
          | some e =>
            simp [mkdirAt, hfe, kindAt, lookup, findEnt_updList_ne _ (Ne.symm hmn)]

theorem mkdirAt_eexist_of_lookup : ∀ (p : Comps) (t : FsTree) (τ : FsTree),
    lookup t p = some τ → (mkdirAt t p).2 = .eexist
  | [], t, _, _ => by cases t <;> rfl
  | [n], t, τ, h => by
    cases t with
    | file sz => simp [lookup] at h
    | other => simp [lookup] at h
    | dir r cs =>
      simp only [lookup] at h
      cases hfe : findEnt cs n with
      | none => rw [hfe] at h; exact absurd h (by simp)
      | some e => simp [mkdirAt, hfe]
  | n :: p1 :: p2, t, τ, h => by
    cases t with
    | file sz => simp [lookup] at h
    | other => simp [lookup] at h
    | dir r cs =>
      simp only [lookup] at h
      cases hfe : findEnt cs n with
      | none => rw [hfe] at h; exact absurd h (by simp)
      | some e =>
        rw [hfe] at h
        simp only [mkdirAt, hfe]
        exact mkdirAt_eexist_of_lookup (p1 :: p2) e.2 τ h

theorem createSingleDirectory_of_lookup {st : CopySt} {p : Comps} {τ : FsTree}
    (h : lookup st.fs p = some τ) : createSingleDirectory st p = st := by
  have h2 := mkdirAt_eexist_of_lookup p st.fs τ h
  have hpair : mkdirAt st.fs p = ((mkdirAt st.fs p).1, MkdirResult.eexist) := by
    rw [← h2]
  unfold createSingleDirectory
  rw [hpair]

theorem lookup_take_isSome {t : FsTree} {p : Comps} {τ : FsTree}
    (h : lookup t p = some τ) (i : Nat) : ∃ u, lookup t (p.take i) = some u := by
  have hsplit := lookup_append t (p.take i) (p.drop i)
  rw [List.take_append_drop, h] at hsplit
  cases hu : lookup t (p.take i) with
  | none => rw [hu] at hsplit; simp at hsplit
  | some u => exact ⟨u, rfl⟩

theorem foldl_fixed {α β : Type} (g : β → α → β) (s : β) :
    ∀ (l : List α), (∀ x ∈ l, g s x = s) → l.foldl g s = s
  | [], _ => rfl
  | x :: xs, h => by
    rw [List.foldl_cons, h x (by simp)]
    exact foldl_fixed g s xs (fun y hy => h y (by simp [hy]))

/-- Claim C7: createDirectory is idempotent.  After a first call that
succeeded, meaning the directory is present afterwards, a second call leaves
the whole state unchanged, the directory still present, with no error and no
diagnostic, because each single-level creation treats an already existing
entry as success. -/
theorem createDirectory_idempotent (st : CopySt) (p : Comps)
    (h : isDirectory (createDirectory st p).fs p = true) :
    createDirectory (createDirectory st p) p = createDirectory st p ∧
    isDirectory (createDirectory (createDirectory st p) p).fs p = true := by
  obtain ⟨τ, hτ⟩ : ∃ u, lookup (createDirectory st p).fs p = some u := by
    unfold isDirectory at h
    cases hl : lookup (createDirectory st p).fs p with
    | none => rw [hl] at h; simp at h
    | some u => exact ⟨u, rfl⟩
  have hfix : createDirectory (createDirectory st p) p = createDirectory st p := by
    unfold createDirectory
    apply foldl_fixed
    intro i _
    obtain ⟨u, hu⟩ := lookup_take_isSome hτ (i + 1)
    exact createSingleDirectory_of_lookup hu
  exact ⟨hfix, by rw [hfix]; exact h⟩

/-- Witness for claim C7 at a concrete input: creating a two-level path in
the demo state succeeds, and the second call is the identity. -/
theorem createDirectory_idempotent_witness :
    isDirectory (createDirectory demoSt ["a", "b"]).fs ["a", "b"] = true ∧
    createDirectory (createDirectory demoSt ["a", "b"]) ["a", "b"] =
      createDirectory demoSt ["a", "b"] :=
  ⟨rfl, (createDirectory_idempotent demoSt ["a", "b"] rfl).1⟩

theorem append_drop_of_pre {d p : Comps} (h : d <+: p) :
    d ++ p.drop d.length = p := by
  obtain ⟨r, rfl⟩ := h
  simp

theorem mirrorGo_self (env : CopyEnv) (fuel : Nat) (d : UPath) (totalSize : Int) :
    ∀ (listing : List UPath) (st : CopySt) (copies : List Comps),
      (∀ p ∈ listing, d.comps <+: p.comps) →
      mirrorGo env fuel d d "copy" totalSize listing st copies = some (st, copies)
  | [], st, copies, _ => rfl
  | p :: ps, st, copies, h => by
    have hp : d.comps ++ p.comps.drop d.comps.length = p.comps :=
      append_drop_of_pre (h p (by simp))
    have hrest : ∀ q ∈ ps, d.comps <+: q.comps := fun q hq => h q (by simp [hq])
    simp only [mirrorGo, hp]
    norm_num
    exact mirrorGo_self env fuel d totalSize ps st copies hrest

/-- Claim C8: mirroring a directory onto itself in copy mode performs zero
copy operations: for each listed file the computed target path, the target
directory plus the source-relative suffix, equals the source path, so the
copy is skipped for every entry and the state is left untouched apart from
the local byte accumulator starting at zero. -/
theorem mirrorFiles_self_skips_all (env : CopyEnv) (fuel : Nat)
    (listing : List UPath) (d : UPath) (st : CopySt)
    (h : ∀ p ∈ listing, d.comps <+: p.comps) :
    mirrorFiles env fuel listing d d "copy" st = some ({ st with acc := 0 }, []) := by
  unfold mirrorFiles
  have hgo := mirrorGo_self env fuel d
    (if "copy" = "copy" then
      listing.foldl
        (fun a p =>
          if p.comps ≠ d.comps ++ p.comps.drop d.comps.length then
            a + (getTotalSize st.fs p.comps : Int)
          else a) 0
      else 0)
    listing { st with acc := 0 } [] h
  exact hgo

/-- Witness for claim C8 at a concrete input: a listing of one file below
the mirrored directory produces no copies. -/
theorem mirrorFiles_self_skips_all_witness :
    (∀ p ∈ [UPath.mk ["d", "f.txt"] false], (UPath.mk ["d"] true).comps <+: p.comps) ∧
    mirrorFiles happyEnv 3 [UPath.mk ["d", "f.txt"] false] (UPath.mk ["d"] true)
      (UPath.mk ["d"] true) "copy" demoSt = some ({ demoSt with acc := 0 }, []) :=
  ⟨by decide,
   mirrorFiles_self_skips_all happyEnv 3 [UPath.mk ["d", "f.txt"] false]
     (UPath.mk ["d"] true) demoSt (by decide)⟩

theorem findEnt_mem : ∀ {cs : List (String × FsTree)} {n : String}
    {e : String × FsTree}, findEnt cs n = some e → e ∈ cs := by
  intro cs
  induction cs with
  | nil => intro n e h; simp [findEnt] at h
  | cons x xs ih =>
    intro n e h
    by_cases hx : x.1 = n
    · simp [findEnt, hx] at h
      simp [← h]
    · simp [findEnt, hx] at h
      simp [ih h]

theorem findEnt_name : ∀ {cs : List (String × FsTree)} {n : String}
    {e : String × FsTree}, findEnt cs n = some e → e.1 = n := by
  intro cs
  induction cs with
  | nil => intro n e h; simp [findEnt] at h
  | cons x xs ih =>
    intro n e h
    by_cases hx : x.1 = n
    · simp [findEnt, hx] at h
      rw [← h]; exact hx
    · simp [findEnt, hx] at h
      exact ih h

theorem findEnt_of_nodup_mem {cs : List (String × FsTree)}
    (hnd : (cs.map Prod.fst).Nodup) {e : String × FsTree} (he : e ∈ cs) :
    findEnt cs e.1 = some e := by
  induction cs with
  | nil => simp at he
  | cons x xs ih =>
    rcases List.mem_cons.mp he with h1 | h2
    · subst h1
      simp [findEnt]
    · have hx : x.1 ≠ e.1 := by
        simp only [List.map_cons, List.nodup_cons] at hnd
        intro hc
        exact hnd.1 (by rw [hc]; exact List.mem_map_of_mem Prod.fst h2)
      simp only [List.map_cons, List.nodup_cons] at hnd
      simp [findEnt, hx, ih hnd.2 h2]

theorem nodupTree_entry {cs : List (String × FsTree)} {e : String × FsTree}
    (h : nodupForest cs = true) (he : e ∈ cs) : nodupTree e.2 = true := by
  induction cs with
  | nil => simp at he
  | cons x xs ih =>
    simp only [nodupForest, Bool.and_eq_true] at h
    rcases List.mem_cons.mp he with h1 | h2
    · subst h1; exact h.1
    · exact ih h.2 h2

theorem nodupTree_lookup : ∀ (p : Comps) (t : FsTree) (τ : FsTree),
    nodupTree t = true → lookup t p = some τ → nodupTree τ = true
  | [], t, τ, ht, hl => by
    simp [lookup] at hl
    rw [← hl]; exact ht
  | n :: p', t, τ, ht, hl => by
    cases t with
    | file s => simp [lookup] at hl
    | other => simp [lookup] at hl
    | dir r cs =>
      simp only [lookup] at hl
      cases hfe : findEnt cs n with
      | none => rw [hfe] at hl; simp at hl
      | some e =>
        rw [hfe] at hl
        simp only [nodupTree, Bool.and_eq_true] at ht
        exact nodupTree_lookup p' e.2 τ (nodupTree_entry ht.2 (findEnt_mem hfe)) hl

theorem lookup_child {t : FsTree} {d : Comps} {r : Bool}
    {cs : List (String × FsTree)} {e : String × FsTree}
    (hd : lookup t d = some (.dir r cs)) (he : findEnt cs e.1 = some e) :
    lookup t (d ++ [e.1]) = some e.2 := by
  rw [lookup_append, hd]
  simp [lookup, he]

theorem qsum_append (t : FsTree) : ∀ (a b : List Comps),
    qsum t (a ++ b) = qsum t a + qsum t b
  | [], b => by simp [qsum]
  | d :: a, b => by simp [qsum, qsum_append t a b]; omega

theorem qneed_append (t : FsTree) : ∀ (a b : List Comps),
    qneed t (a ++ b) = qneed t a + qneed t b
  | [], b => by simp [qneed]
  | d :: a, b => by simp [qneed, qneed_append t a b]; omega

theorem specTotalSize_of_lookup {t : FsTree} {p : Comps} {τ : FsTree}
    (h : lookup t p = some τ) : specTotalSize t p = visBytes τ := by
  unfold specTotalSize
  rw [h]

theorem visBytesF_split (t : FsTree) (d : Comps) :
    ∀ (cs : List (String × FsTree)),
      (∀ e ∈ cs, lookup t (d ++ [e.1]) = some e.2) →
      fileSizesOf cs + qsum t (subDirsOf d cs) = visBytesF cs
  | [], _ => rfl
  | e :: es, h => by
    have hrest := visBytesF_split t d es (fun x hx => h x (by simp [hx]))
    have he := h e (by simp)
    cases e2 : e.2 with
    | file s =>
      simp only [fileSizesOf, subDirsOf, visBytesF, visBytes, e2]
      omega
    | dir r2 cs2 =>
      rw [e2] at he
      simp only [fileSizesOf, subDirsOf, visBytesF, e2, qsum,
        specTotalSize_of_lookup he]
      omega
    | other =>
      simp only [fileSizesOf, subDirsOf, visBytesF, visBytes, e2]
      omega

theorem qneed_subDirs (t : FsTree) (d : Comps) :
    ∀ (cs : List (String × FsTree)),
      (∀ e ∈ cs, lookup t (d ++ [e.1]) = some e.2) →
      qneed t (subDirsOf d cs) ≤ forestSize cs
  | [], _ => le_refl _
  | e :: es, h => by
    have hrest := qneed_subDirs t d es (fun x hx => h x (by simp [hx]))
    have he := h e (by simp)
    have hpos : 1 ≤ treeSize e.2 := by
      cases e.2 <;> simp [treeSize]
    cases e2 : e.2 with
    | file s =>
      simp only [subDirsOf, forestSize, e2]
      rw [e2] at hpos
      omega
    | dir r2 cs2 =>
      rw [e2] at he
      simp only [subDirsOf, forestSize, e2, qneed, he]
      rw [e2] at hpos
      omega
    | other =>
      simp only [subDirsOf, forestSize, e2]
      rw [e2] at hpos
      omega

theorem subDirs_isDirectory (t : FsTree) (d : Comps) :
    ∀ (cs : List (String × FsTree)),
      (∀ e ∈ cs, lookup t (d ++ [e.1]) = some e.2) →
      ∀ q ∈ subDirsOf d cs, isDirectory t q = true
  | [], _ => by simp [subDirsOf]
  | e :: es, h => by
    have hrest := subDirs_isDirectory t d es (fun x hx => h x (by simp [hx]))
    have he := h e (by simp)
    intro q hq
    cases e2 : e.2 with
    | file s =>
      rw [subDirsOf, e2] at hq
      exact hrest q hq
    | dir r2 cs2 =>
      rw [subDirsOf, e2] at hq
      rcases List.mem_cons.mp hq with h1 | h2
      · subst h1
        rw [e2] at he
        simp [isDirectory, he]
      · exact hrest q h2
    | other =>
      rw [subDirsOf, e2] at hq
      exact hrest q hq

theorem getTotalSizeLoop_spec (t : FsTree) (hnd : nodupTree t = true) :
    ∀ (fuel : Nat) (q : List Comps) (acc : Nat),
      (∀ d ∈ q, isDirectory t d = true) →
      qneed t q ≤ fuel →
      getTotalSizeLoop t fuel q acc = acc + qsum t q := by
  intro fuel
  induction fuel with
  | zero =>
    intro q acc hdirs hf
    cases q with
    | nil => simp [getTotalSizeLoop, qsum]
    | cons d rest =>
      exfalso
      have hd := hdirs d (by simp)
      unfold isDirectory at hd
      cases hl : lookup t d with
      | none => rw [hl] at hd; simp at hd
      | some τ =>
        have : 1 ≤ treeSize τ := by cases τ <;> simp [treeSize]
        simp only [qneed, hl] at hf
        omega
  | succ fuel ih =>
    intro q acc hdirs hf
    cases q with
    | nil => simp [getTotalSizeLoop, qsum]
    | cons d rest =>
      have hd := hdirs d (by simp)
      unfold isDirectory at hd
      cases hl : lookup t d with
      | none => rw [hl] at hd; simp at hd
      | some τ =>
        cases τ with
        | file s => rw [hl] at hd; simp at hd
        | other => rw [hl] at hd; simp at hd
        | dir r cs =>
          have hcs : (cs.map Prod.fst).Nodup ∧ nodupForest cs = true := by
            have := nodupTree_lookup d t _ hnd hl
            simp only [nodupTree, Bool.and_eq_true, decide_eq_true_eq] at this
            exact this
          have hchild : ∀ e ∈ cs, lookup t (d ++ [e.1]) = some e.2 := fun e he =>
            lookup_child hl (findEnt_of_nodup_mem hcs.1 he)
          cases r with
          | false =>
            simp only [getTotalSizeLoop, hl]
            have hrest : qneed t rest ≤ fuel := by
              have h2 : qneed t (d :: rest) = treeSize (FsTree.dir false cs) + qneed t rest := by
                simp [qneed, hl]
              have h3 : treeSize (FsTree.dir false cs) = 1 + forestSize cs := rfl
              rw [h2, h3] at hf
              omega
            rw [ih rest acc (fun x hx => hdirs x (by simp [hx])) hrest]
            simp [qsum, specTotalSize, hl, visBytes]
          | true =>
            simp only [getTotalSizeLoop, hl]
            have hfuel2 : qneed t (rest ++ subDirsOf d cs) ≤ fuel := by
              rw [qneed_append]
              have h1 := qneed_subDirs t d cs hchild
              have h2 : qneed t (d :: rest) = treeSize (FsTree.dir true cs) + qneed t rest := by
                simp [qneed, hl]
              have h3 : treeSize (FsTree.dir true cs) = 1 + forestSize cs := rfl
              rw [h2, h3] at hf
              omega
            have hdirs2 : ∀ x ∈ rest ++ subDirsOf d cs, isDirectory t x = true := by
              intro x hx
              rcases List.mem_append.mp hx with h1 | h2
              · exact hdirs x (by simp [h1])
              · exact subDirs_isDirectory t d cs hchild x h2
            rw [ih (rest ++ subDirsOf d cs) (acc + fileSizesOf cs) hdirs2 hfuel2]
            rw [qsum_append]
            have hsplit := visBytesF_split t d cs hchild
            simp only [qsum, specTotalSize, hl, visBytes]
            omega

/-- Claim C6: getTotalSize agrees with the specification-side size
accountant.  On a filesystem with distinct sibling names it returns the byte
length of a regular file, the sum of the sizes of all regular files reachable
through the breadth-first walk of a directory, where everything below an
unreadable directory contributes zero, and zero for entries of other kinds
and for nonexistent paths. -/
theorem getTotalSize_eq_spec (t : FsTree) (p : Comps) (hnd : nodupTree t = true) :
    getTotalSize t p = specTotalSize t p := by
  cases hl : lookup t p with
  | none => unfold getTotalSize specTotalSize; rw [hl]
  | some τ =>
    cases τ with
    | file s =>
      unfold getTotalSize specTotalSize
      rw [hl]
      rfl
    | other =>
      unfold getTotalSize specTotalSize
      rw [hl]
      rfl
    | dir r cs =>
      have hdirs : ∀ d ∈ [p], isDirectory t d = true := by
        intro d hd
        simp at hd
        subst hd
        simp [isDirectory, hl]
      have hfuel : qneed t [p] ≤ treeSize (FsTree.dir r cs) := by
        simp [qneed, hl]
      have hloop := getTotalSizeLoop_spec t hnd (treeSize (FsTree.dir r cs)) [p] 0 hdirs hfuel
      unfold getTotalSize specTotalSize
      rw [hl]
      show getTotalSizeLoop t (treeSize (FsTree.dir r cs)) [p] 0 = visBytes (FsTree.dir r cs)
      rw [hloop]
      simp [qsum, specTotalSize_of_lookup hl]

/-- Witness for claim C6 at a concrete input: a tree with a nested readable
directory, an unreadable directory and an entry of other kind. -/
theorem getTotalSize_eq_spec_witness :
    nodupTree sizeDemoTree = true ∧ getTotalSize sizeDemoTree [] = 7 :=
  ⟨rfl,
   by
    rw [getTotalSize_eq_spec sizeDemoTree [] rfl]
    rfl⟩

theorem createSingleDirectory_shape (st : CopySt) (p : Comps) :
    ∃ f d, createSingleDirectory st p = { st with fs := f, diags := d } := by
  unfold createSingleDirectory
  cases h : mkdirAt st.fs p with
  | mk f r =>
    cases r with
    | ok => exact ⟨f, st.diags, rfl⟩
    | eexist => exact ⟨st.fs, st.diags, rfl⟩
    | failed => exact ⟨st.fs, st.diags + 1, rfl⟩

theorem createDirectory_shape (st : CopySt) (p : Comps) :
    ∃ f d, createDirectory st p = { st with fs := f, diags := d } := by
  unfold createDirectory
  generalize List.range p.length = l
  induction l generalizing st with
  | nil => exact ⟨st.fs, st.diags, rfl⟩
  | cons i l ih =>
    rw [List.foldl_cons]
    obtain ⟨f1, d1, h1⟩ := createSingleDirectory_shape st (p.take (i + 1))
    rw [h1]
    obtain ⟨f2, d2, h2⟩ := ih { st with fs := f1, diags := d1 }
    rw [h2]
    exact ⟨f2, d2, rfl⟩

theorem openLoop_opens_le (env : CopyEnv) (ok : Bool) :
    ∀ (fuel rc : Nat) (st : CopySt),
      (openLoop env ok fuel rc st).1.opens ≤ st.opens + fuel := by
  intro fuel
  induction fuel with
  | zero => intro rc st; simp [openLoop]
  | succ fuel ih =>
    intro rc st
    unfold openLoop
    by_cases hg : (ok && env.openOk st.opens) = true
    · simp [hg]
    · simp only [hg, Bool.false_eq_true, if_false]
      by_cases hrc : rc + 1 > 10
      · simp only [if_pos hrc]
        show st.opens + 1 ≤ st.opens + (fuel + 1)
        omega
      · simp only [if_neg hrc]
        have hrec := ih (rc + 1) { st with opens := st.opens + 1, diags := st.diags + 1 }
        have hn : ({ st with opens := st.opens + 1, diags := st.diags + 1 } : CopySt).opens
            = st.opens + 1 := rfl
        rw [hn] at hrec
        omega

theorem openLoop_shape (env : CopyEnv) (ok : Bool) :
    ∀ (fuel rc : Nat) (st : CopySt),
      ∃ o d, (openLoop env ok fuel rc st).1 = { st with opens := o, diags := d } := by
  intro fuel
  induction fuel with
  | zero => intro rc st; exact ⟨st.opens, st.diags, rfl⟩
  | succ fuel ih =>
    intro rc st
    unfold openLoop
    by_cases hg : (ok && env.openOk st.opens) = true
    · simp only [hg, if_true]
      exact ⟨st.opens + 1, st.diags, rfl⟩
    · simp only [hg, Bool.false_eq_true, if_false]
      by_cases hrc : rc + 1 > 10
      · simp only [if_pos hrc]
        exact ⟨st.opens + 1, st.diags + 1 + 1, rfl⟩
      · simp only [if_neg hrc]
        obtain ⟨o, d, h⟩ := ih (rc + 1)
          { st with opens := st.opens + 1, diags := st.diags + 1 }
        rw [h]
        exact ⟨o, d, rfl⟩

theorem openLoop_gaveUp_opens (env : CopyEnv) (ok : Bool) :
    ∀ (fuel rc : Nat) (st : CopySt), rc ≤ 10 → 11 - rc ≤ fuel →
      (openLoop env ok fuel rc st).2 = false →
      (openLoop env ok fuel rc st).1.opens = st.opens + (11 - rc) := by
  intro fuel
  induction fuel with
  | zero => intro rc st hrc hf _; omega
  | succ fuel ih =>
    intro rc st hrc hf hfalse
    unfold openLoop at hfalse ⊢
    by_cases hg : (ok && env.openOk st.opens) = true
    · simp [hg] at hfalse
    · simp only [hg, Bool.false_eq_true, if_false] at hfalse ⊢
      by_cases hrc1 : rc + 1 > 10
      · simp only [if_pos hrc1] at hfalse ⊢
        show st.opens + 1 = st.opens + (11 - rc)
        omega
      · simp only [if_neg hrc1] at hfalse ⊢
        have hrec := ih (rc + 1) { st with opens := st.opens + 1, diags := st.diags + 1 }
          (by omega) (by omega) hfalse
        have hn : ({ st with opens := st.opens + 1, diags := st.diags + 1 } : CopySt).opens
            = st.opens + 1 := rfl
        rw [hn] at hrec
        rw [hrec]
        omega

theorem chunkLoop_no_openGaveUp (env : CopyEnv) (toFile : Comps) (totalSize : Int) :
    ∀ (chunks : List Nat) (w : Nat) (st : CopySt),
      (chunkLoop env toFile totalSize chunks w st).2 ≠ .openGaveUp
  | [], _, st => by simp [chunkLoop]
  | c :: rest, w, st => by
    unfold chunkLoop
    by_cases ha : env.abortAt st.checks = true
    · simp [ha]
    · simp only [ha, Bool.false_eq_true, if_false]
      by_cases hw : env.writeOk ({ st with checks := st.checks + 1 } : CopySt).writes = true
      · simp only [if_pos hw]
        exact chunkLoop_no_openGaveUp env toFile totalSize rest (w + c) _
      · simp only [if_neg hw]
        simp

theorem chunkLoop_opens (env : CopyEnv) (toFile : Comps) (totalSize : Int) :
    ∀ (chunks : List Nat) (w : Nat) (st : CopySt),
      (chunkLoop env toFile totalSize chunks w st).1.opens = st.opens
  | [], _, st => rfl
  | c :: rest, w, st => by
    unfold chunkLoop
    by_cases ha : env.abortAt st.checks = true
    · simp [ha, storePct]
    · simp only [ha, Bool.false_eq_true, if_false]
      by_cases hw : env.writeOk ({ st with checks := st.checks + 1 } : CopySt).writes = true
      · simp only [if_pos hw]
        by_cases ht : totalSize > 0
        · simp only [if_pos ht]
          rw [chunkLoop_opens env toFile totalSize rest (w + c) _]
          simp [storePct]
        · simp only [if_neg ht]
          rw [chunkLoop_opens env toFile totalSize rest (w + c) _]
      · simp only [if_neg hw]
        simp [storePct]

theorem openLogDir_shape (l : Option Comps) (st : CopySt) :
    ∃ f d, openLogDir l st = { st with fs := f, diags := d } := by
  cases l with
  | none => exact ⟨st.fs, st.diags, rfl⟩
  | some ls => exact createDirectory_shape st ls.dropLast

/-- Counterexample to claim C4 as stated: with every open attempt failing,
copySingleFile performs eleven open attempts in total before giving up, one
more than the ten the claim allows. -/
theorem copySingleFile_open_retry_counterexample :
    (copySingleFile allOpenFailEnv ["d", "f.txt"] ["out"] 0 none none demoSt).1.opens = 11 ∧
    (copySingleFile allOpenFailEnv ["d", "f.txt"] ["out"] 0 none none demoSt).2 =
      .openGaveUp ∧
    ¬ (11 ≤ 10) :=
  ⟨rfl, rfl, by decide⟩

theorem appendLogLines_opens (logSrc logDst : Option Comps) (a b : Comps)
    (st : CopySt) : (appendLogLines logSrc logDst a b st).opens = st.opens := by
  cases logSrc <;> cases logDst <;> rfl

theorem copySingleFile_opened (env : CopyEnv) (fromFile toFile : Comps)
    (totalSize : Int) (logSrc logDst : Option Comps) (st₀ : CopySt)
    (hr : (openLoop env
        (openPairOk (createDirectory st₀ toFile.dropLast).fs fromFile toFile) 11 0
        (createDirectory st₀ toFile.dropLast)).2 = true) :
    (copySingleFile env fromFile toFile totalSize logSrc logDst st₀).1.opens =
      (openLoop env
        (openPairOk (createDirectory st₀ toFile.dropLast).fs fromFile toFile) 11 0
        (createDirectory st₀ toFile.dropLast)).1.opens ∧
    (copySingleFile env fromFile toFile totalSize logSrc logDst st₀).2 ≠ .openGaveUp := by
  simp only [copySingleFile, hr, Bool.true_eq_false, if_false]
  obtain ⟨fa, da, ha⟩ := openLogDir_shape logSrc
    { (openLoop env
        (openPairOk (createDirectory st₀ toFile.dropLast).fs fromFile toFile) 11 0
        (createDirectory st₀ toFile.dropLast)).1 with
      fs := setFileAt (openLoop env
        (openPairOk (createDirectory st₀ toFile.dropLast).fs fromFile toFile) 11 0
        (createDirectory st₀ toFile.dropLast)).1.fs toFile 0 }
  rw [ha]
  obtain ⟨fb, db, hb⟩ := openLogDir_shape logDst _
  rw [hb]
  cases hres : (chunkLoop env toFile totalSize
      (chunkList (srcSizeOf (setFileAt (openLoop env
        (openPairOk (createDirectory st₀ toFile.dropLast).fs fromFile toFile) 11 0
        (createDirectory st₀ toFile.dropLast)).1.fs toFile 0) fromFile)) 0
      { (openLoop env
          (openPairOk (createDirectory st₀ toFile.dropLast).fs fromFile toFile) 11 0
          (createDirectory st₀ toFile.dropLast)).1 with
        fs := fb, diags := db }) with
  | mk stc status =>
    have hop : stc.opens = (openLoop env
        (openPairOk (createDirectory st₀ toFile.dropLast).fs fromFile toFile) 11 0
        (createDirectory st₀ toFile.dropLast)).1.opens := by
      have := chunkLoop_opens env toFile totalSize
        (chunkList (srcSizeOf (setFileAt (openLoop env
          (openPairOk (createDirectory st₀ toFile.dropLast).fs fromFile toFile) 11 0
          (createDirectory st₀ toFile.dropLast)).1.fs toFile 0) fromFile)) 0
        { (openLoop env
            (openPairOk (createDirectory st₀ toFile.dropLast).fs fromFile toFile) 11 0
            (createDirectory st₀ toFile.dropLast)).1 with
          fs := fb, diags := db }
      rw [hres] at this
      exact this
    have hstat : status ≠ .openGaveUp := by
      have := chunkLoop_no_openGaveUp env toFile totalSize
        (chunkList (srcSizeOf (setFileAt (openLoop env
          (openPairOk (createDirectory st₀ toFile.dropLast).fs fromFile toFile) 11 0
          (createDirectory st₀ toFile.dropLast)).1.fs toFile 0) fromFile)) 0
        { (openLoop env
            (openPairOk (createDirectory st₀ toFile.dropLast).fs fromFile toFile) 11 0
            (createDirectory st₀ toFile.dropLast)).1 with
          fs := fb, diags := db }
      rw [hres] at this
      exact this
    cases status with
    | completed =>
      constructor
      · rw [appendLogLines_opens]
        exact hop
      · intro hc
        exact CopyStatus.noConfusion hc
    | openGaveUp => exact absurd rfl hstat
    | aborted =>
      exact ⟨hop, fun hc => CopyStatus.noConfusion hc⟩
    | writeError =>
      exact ⟨hop, fun hc => CopyStatus.noConfusion hc⟩

/-- Claim C4, amended: when opening the source or destination keeps failing,
copySingleFile attempts the pair of opens at most eleven times in total, the
first attempt plus ten retries, with no backoff delay; when it gives up it
returns without copying and without signaling an error to the caller, with
diagnostics only: the byte accumulator, the published percentage, the
publication list, both operation logs and the abort-check and write counters
are all unchanged. -/
theorem copySingleFile_open_retry_bound (env : CopyEnv) (fromFile toFile : Comps)
    (totalSize : Int) (logSrc logDst : Option Comps) (st : CopySt) :
    (copySingleFile env fromFile toFile totalSize logSrc logDst st).1.opens ≤
      st.opens + 11 ∧
    ((copySingleFile env fromFile toFile totalSize logSrc logDst st).2 = .openGaveUp →
      (copySingleFile env fromFile toFile totalSize logSrc logDst st).1.opens =
        st.opens + 11 ∧
      (copySingleFile env fromFile toFile totalSize logSrc logDst st).1.acc = st.acc ∧
      (copySingleFile env fromFile toFile totalSize logSrc logDst st).1.pct = st.pct ∧
      (copySingleFile env fromFile toFile totalSize logSrc logDst st).1.pubs = st.pubs ∧
      (copySingleFile env fromFile toFile totalSize logSrc logDst st).1.srcLog = st.srcLog ∧
      (copySingleFile env fromFile toFile totalSize logSrc logDst st).1.destLog = st.destLog ∧
      (copySingleFile env fromFile toFile totalSize logSrc logDst st).1.checks = st.checks ∧
      (copySingleFile env fromFile toFile totalSize logSrc logDst st).1.writes = st.writes) := by
  obtain ⟨f1, d1, h1⟩ := createDirectory_shape st toFile.dropLast
  cases hr : (openLoop env
      (openPairOk (createDirectory st toFile.dropLast).fs fromFile toFile) 11 0
      (createDirectory st toFile.dropLast)).2 with
  | true =>
    obtain ⟨heq, hne⟩ :=
      copySingleFile_opened env fromFile toFile totalSize logSrc logDst st hr
    constructor
    · rw [heq]
      have hle := openLoop_opens_le env
        (openPairOk (createDirectory st toFile.dropLast).fs fromFile toFile) 11 0
        (createDirectory st toFile.dropLast)
      rw [h1] at hle
      have hn : ({ st with fs := f1, diags := d1 } : CopySt).opens = st.opens := rfl
      rw [hn] at hle
      rw [h1]
      exact hle
    · intro hc
      exact absurd hc hne
  | false =>
    set ol := openLoop env
      (openPairOk (createDirectory st toFile.dropLast).fs fromFile toFile) 11 0
      (createDirectory st toFile.dropLast) with holdef
    have hres : copySingleFile env fromFile toFile totalSize logSrc logDst st =
        (ol.1, .openGaveUp) := by
      simp only [copySingleFile, holdef.symm, hr, if_true]
    obtain ⟨o, d, hsh⟩ := openLoop_shape env
      (openPairOk (createDirectory st toFile.dropLast).fs fromFile toFile) 11 0
      (createDirectory st toFile.dropLast)
    have hopn := openLoop_gaveUp_opens env
      (openPairOk (createDirectory st toFile.dropLast).fs fromFile toFile) 11 0
      (createDirectory st toFile.dropLast) (by omega) (by omega) hr
    have hno : (createDirectory st toFile.dropLast).opens = st.opens := by rw [h1]
    have hoeq : ol.1.opens = st.opens + 11 := by
      rw [hopn, hno]
    rw [hres]
    refine ⟨?_, fun _ => ⟨?_, ?_, ?_, ?_, ?_, ?_, ?_, ?_⟩⟩
    · show ol.1.opens ≤ st.opens + 11
      omega
    · show ol.1.opens = st.opens + 11
      exact hoeq
    · show ol.1.acc = st.acc
      rw [hsh]
      show (createDirectory st toFile.dropLast).acc = st.acc
      rw [h1]
    · show ol.1.pct = st.pct
      rw [hsh]
      show (createDirectory st toFile.dropLast).pct = st.pct
      rw [h1]
    · show ol.1.pubs = st.pubs
      rw [hsh]
      show (createDirectory st toFile.dropLast).pubs = st.pubs
      rw [h1]
    · show ol.1.srcLog = st.srcLog
      rw [hsh]
      show (createDirectory st toFile.dropLast).srcLog = st.srcLog
      rw [h1]
    · show ol.1.destLog = st.destLog
      rw [hsh]
      show (createDirectory st toFile.dropLast).destLog = st.destLog
      rw [h1]
    · show ol.1.checks = st.checks
      rw [hsh]
      show (createDirectory st toFile.dropLast).checks = st.checks
      rw [h1]
    · show ol.1.writes = st.writes
      rw [hsh]
      show (createDirectory st toFile.dropLast).writes = st.writes
      rw [h1]

/-- Witness for amended claim C4 at a concrete input: with every open
failing, the call gives up with exactly eleven attempts, the accumulator
untouched. -/
theorem copySingleFile_open_retry_bound_witness :
    (copySingleFile allOpenFailEnv ["d", "f.txt"] ["out"] 0 none none demoSt).2 =
      .openGaveUp ∧
    (copySingleFile allOpenFailEnv ["d", "f.txt"] ["out"] 0 none none demoSt).1.opens ≤
      demoSt.opens + 11 ∧
    (copySingleFile allOpenFailEnv ["d", "f.txt"] ["out"] 0 none none demoSt).1.acc =
      demoSt.acc :=
  ⟨rfl,
   (copySingleFile_open_retry_bound allOpenFailEnv ["d", "f.txt"] ["out"] 0 none none
     demoSt).1,
   ((copySingleFile_open_retry_bound allOpenFailEnv ["d", "f.txt"] ["out"] 0 none none
     demoSt).2 rfl).2.1⟩

theorem lookup_file_of_kind {t : FsTree} {p : Comps} {s : Nat}
    (h : kindAt t p = some (.file s)) : lookup t p = some (.file s) := by
  unfold kindAt at h
  cases hl : lookup t p with
  | none => rw [hl] at h; simp at h
  | some u =>
    rw [hl] at h
    cases u with
    | file s2 => simp [kindOf] at h; rw [h]
    | dir r cs => simp [kindOf] at h
    | other => simp [kindOf] at h

theorem kindAt_createSingleDirectory_pres {st : CopySt} {q : Comps} {k : FKind}
    (p : Comps) (h : kindAt st.fs q = some k) :
    kindAt (createSingleDirectory st p).fs q = some k := by
  unfold createSingleDirectory
  cases hm : mkdirAt st.fs p with
  | mk f r =>
    cases r with
    | ok =>
      by_cases hpq : q = p
      · subst hpq
        exfalso
        unfold kindAt at h
        cases hl : lookup st.fs q with
        | none => rw [hl] at h; simp at h
        | some u =>
          have := mkdirAt_eexist_of_lookup q st.fs u hl
          rw [hm] at this
          simp at this
      · have h2 := kindAt_mkdirAt_ne p q st.fs hpq
        rw [hm] at h2
        have h3 : ((f, MkdirResult.ok).1 : FsTree) = f := rfl
        rw [h3] at h2
        show kindAt f q = some k
        rw [h2]
        exact h
    | eexist => exact h
    | failed => exact h

theorem kindAt_createDirectory_pres {st : CopySt} {q : Comps} {k : FKind}
    (p : Comps) (h : kindAt st.fs q = some k) :
    kindAt (createDirectory st p).fs q = some k := by
  unfold createDirectory
  generalize List.range p.length = l
  induction l generalizing st with
  | nil => exact h
  | cons i l ih =>
    rw [List.foldl_cons]
    exact ih (kindAt_createSingleDirectory_pres (p.take (i + 1)) h)

theorem updList_append_single {cs : List (String × FsTree)} {n : String}
    {t : FsTree} (f : FsTree → FsTree) :
    updList (cs ++ [(n, t)]) n f = updList cs n f ++ [(n, f t)] := by
  induction cs with
  | nil => simp [updList]
  | cons e es ih =>
    by_cases he : e.1 = n
    · simp [updList, he, ih]
    · simp [updList, he, ih]

theorem updList_of_findEnt_none {cs : List (String × FsTree)} {n : String}
    (f : FsTree → FsTree) (h : findEnt cs n = none) : updList cs n f = cs := by
  induction cs with
  | nil => rfl
  | cons e es ih =>
    by_cases he : e.1 = n
    · simp [findEnt, he] at h
    · have h2 : findEnt es n = none := by
        simpa [findEnt, he] using h
      simp [updList, he, ih h2]

theorem setFileAt_setFileAt : ∀ (p : Comps) (t : FsTree) (a b : Nat),
    setFileAt (setFileAt t p a) p b = setFileAt t p b
  | [], t, _, _ => by cases t <;> rfl
  | [n], t, a, b => by
    cases t with
    | file s => rfl
    | other => rfl
    | dir r cs =>
      cases hfe : findEnt cs n with
      | none =>
        simp only [setFileAt, hfe, findEnt_append_self hfe]
        rw [updList_append_single, updList_of_findEnt_none _ hfe]
      | some e =>
        cases e2 : e.2 with
        | file s2 =>
          simp only [setFileAt, hfe, e2, findEnt_updList_self]
          simp [updList_updList]
        | dir r2 cs2 => simp only [setFileAt, hfe, e2]
        | other => simp only [setFileAt, hfe, e2]
  | n :: p1 :: p2, t, a, b => by
    cases t with
    | file s => rfl
    | other => rfl
    | dir r cs =>
      cases hfe : findEnt cs n with
      | none => simp only [setFileAt, hfe]
      | some e =>
        simp only [setFileAt, hfe, findEnt_updList_self, Option.map_some]
        rw [updList_updList]
        exact congrArg (fun x => FsTree.dir r x)
          (updList_congr (fun c => setFileAt_setFileAt (p1 :: p2) c a b))

theorem chunkList_sum (s : Nat) : (chunkList s).sum = s := by
  induction s using Nat.strong_induction_on with
  | _ s ih =>
    cases s with
    | zero => simp [chunkList]
    | succ s =>
      rw [chunkList]
      rw [List.sum_cons,
        ih (s + 1 - min COPY_BUFFER_SIZE (s + 1)) (by simp only [COPY_BUFFER_SIZE]; omega)]
      have : min COPY_BUFFER_SIZE (s + 1) ≤ s + 1 := min_le_right _ _
      omega

theorem openLoop_first (env : CopyEnv) (st : CopySt) (fuel rc : Nat)
    (hok : env.openOk st.opens = true) :
    openLoop env true (fuel + 1) rc st = ({ st with opens := st.opens + 1 }, true) := by
  unfold openLoop
  simp [hok]

theorem chunkLoop_cons_happy (toFile : Comps) (T : Int) (hT : T > 0)
    (c : Nat) (rest : List Nat) (w : Nat) (st : CopySt) :
    chunkLoop happyEnv toFile T (c :: rest) w st =
      chunkLoop happyEnv toFile T rest (w + c)
        { st with checks := st.checks + 1, writes := st.writes + 1,
                  fs := setFileAt st.fs toFile (w + c), acc := st.acc + (c : Int),
                  pct := (100 * (st.acc + (c : Int))).tdiv T,
                  pubs := st.pubs ++ [(100 * (st.acc + (c : Int))).tdiv T] } := by
  simp only [chunkLoop, happyEnv]
  simp [storePct, hT]

theorem chunkLoop_happy (toFile : Comps) (T : Int) (hT : T > 0) :
    ∀ (chunks : List Nat) (w : Nat) (st : CopySt),
      chunkLoop happyEnv toFile T chunks w st =
        ({ st with
            fs := if chunks.isEmpty then st.fs
              else setFileAt st.fs toFile (w + chunks.sum),
            acc := st.acc + (chunks.sum : Int),
            checks := st.checks + chunks.length,
            writes := st.writes + chunks.length,
            pct := if chunks.isEmpty then st.pct
              else (100 * (st.acc + (chunks.sum : Int))).tdiv T,
            pubs := st.pubs ++ (prefixSums st.acc chunks).map
              (fun b => (100 * b).tdiv T) },
         .completed)
  | [], w, st => by
    refine Prod.ext ?_ rfl
    show st = _
    simp [prefixSums]
  | c :: rest, w, st => by
    rw [chunkLoop_cons_happy toFile T hT c rest w st]
    rw [chunkLoop_happy toFile T hT rest (w + c) _]
    refine Prod.ext ?_ rfl
    show CopySt.mk _ _ _ _ _ _ _ _ _ _ = CopySt.mk _ _ _ _ _ _ _ _ _ _
    cases rest with
    | nil =>
      simp [prefixSums]
    | cons c2 r2 =>
      simp [prefixSums, setFileAt_setFileAt]
      refine ⟨?_, ?_, by ring, by omega, by omega⟩
      · congr 1
        omega
      · congr 2
        ring

theorem chunkList_length_pos (s : Nat) (hs : 0 < s) : 0 < (chunkList s).length := by
  cases s with
  | zero => omega
  | succ n => rw [chunkList]; simp

theorem prefixSums_chain (T : Int) (hT : 0 < T) :
    ∀ (chunks : List Nat) (acc : Int),
      List.Chain' (fun a b => a ≤ b)
        ((prefixSums acc chunks).map (fun b => 100 * b / T))
  | [], _ => by simp [prefixSums]
  | [c], acc => by simp [prefixSums]
  | c :: c2 :: rest, acc => by
    have htail := prefixSums_chain T hT (c2 :: rest) (acc + c)
    simp only [prefixSums, List.map_cons] at htail ⊢
    refine List.chain'_cons.mpr ⟨?_, htail⟩
    refine Int.ediv_le_ediv hT ?_
    have hc2 : (0 : Int) ≤ (c2 : Int) := Int.natCast_nonneg c2
    omega

theorem prefixSums_map_floor (T : Int) (hT : 0 < T) :
    ∀ (chunks : List Nat) (acc : Int), 0 ≤ acc →
      (prefixSums acc chunks).map (fun b => (100 * b).tdiv T) =
        (prefixSums acc chunks).map (fun b => 100 * b / T)
  | [], _, _ => rfl
  | c :: rest, acc, hacc => by
    have hc : (0 : Int) ≤ (c : Int) := Int.natCast_nonneg c
    simp only [prefixSums, List.map_cons]
    rw [Int.tdiv_eq_ediv (by omega) hT.le,
      prefixSums_map_floor T hT rest (acc + c) (by omega)]

theorem copySingleFile_happy (fromFile toFile : Comps) (T : Int) (hT : 0 < T)
    (st : CopySt) (s : Nat)
    (hok : openPairOk (createDirectory st toFile.dropLast).fs fromFile toFile = true)
    (hs : lookup (createDirectory st toFile.dropLast).fs fromFile = some (.file s))
    (hpf : ¬ toFile <+: fromFile) (hpf2 : ¬ fromFile <+: toFile) :
    copySingleFile happyEnv fromFile toFile T none none st =
      ({ st with
          fs := setFileAt (createDirectory st toFile.dropLast).fs toFile s,
          diags := (createDirectory st toFile.dropLast).diags,
          opens := st.opens + 1,
          checks := st.checks + (chunkList s).length,
          writes := st.writes + (chunkList s).length,
          acc := st.acc + (s : Int),
          pct := if s = 0 then st.pct else (100 * (st.acc + (s : Int))).tdiv T,
          pubs := st.pubs ++ (prefixSums st.acc (chunkList s)).map
            (fun b => (100 * b).tdiv T) },
       .completed) := by
  set stD := createDirectory st toFile.dropLast with hstD
  have hopen : openLoop happyEnv (openPairOk stD.fs fromFile toFile) 11 0 stD =
      ({ stD with opens := stD.opens + 1 }, true) := by
    rw [hok]
    exact openLoop_first happyEnv _ 10 0 rfl
  have hsrc : srcSizeOf (setFileAt stD.fs toFile 0) fromFile = s := by
    unfold srcSizeOf
    rw [lookup_setFileAt_incomp toFile fromFile stD.fs 0 hpf hpf2, hs]
  simp only [copySingleFile, ← hstD, hopen]
  simp only [openLogDir, Bool.true_eq_false, if_false, hsrc]
  rw [chunkLoop_happy toFile T hT (chunkList s) 0 _]
  simp only [appendLogLines]
  obtain ⟨fD, dD, hD⟩ := createDirectory_shape st toFile.dropLast
  rw [hstD, hD]
  cases s with
  | zero =>
    rw [show chunkList 0 = [] from by rw [chunkList]]
    simp [prefixSums]
  | succ n =>
    have hne : (chunkList (n + 1)).isEmpty = false := by
      rw [chunkList]; rfl
    have hsum : (chunkList (n + 1)).sum = n + 1 := chunkList_sum (n + 1)
    simp [hne, hsum, setFileAt_setFileAt]

/-- Claim C5: during a copy that completes, every fully written chunk adds
exactly its byte count to the shared accumulator, and with a strictly
positive total size hint the percentage published after each chunk is the
floor of one hundred times the bytes accumulated so far over the total; the
resulting publication sequence is monotonically non-decreasing. -/
theorem copySingleFile_chunk_progress (fromFile toFile : Comps) (T : Int)
    (st : CopySt) (s : Nat) (hT : 0 < T) (hacc : 0 ≤ st.acc)
    (hok : openPairOk (createDirectory st toFile.dropLast).fs fromFile toFile = true)
    (hs : lookup (createDirectory st toFile.dropLast).fs fromFile = some (.file s))
    (hpf : ¬ toFile <+: fromFile) (hpf2 : ¬ fromFile <+: toFile) :
    (copySingleFile happyEnv fromFile toFile T none none st).2 = .completed ∧
    (copySingleFile happyEnv fromFile toFile T none none st).1.acc =
      st.acc + ((chunkList s).sum : Int) ∧
    (chunkList s).sum = s ∧
    (copySingleFile happyEnv fromFile toFile T none none st).1.pubs =
      st.pubs ++ (prefixSums st.acc (chunkList s)).map (fun b => 100 * b / T) ∧
    List.Chain' (fun a b => a ≤ b)
      ((prefixSums st.acc (chunkList s)).map (fun b => 100 * b / T)) := by
  rw [copySingleFile_happy fromFile toFile T hT st s hok hs hpf hpf2]
  refine ⟨rfl, ?_, chunkList_sum s, ?_, prefixSums_chain T hT (chunkList s) st.acc⟩
  · show st.acc + (s : Int) = st.acc + ((chunkList s).sum : Int)
    rw [chunkList_sum s]
  · show st.pubs ++ (prefixSums st.acc (chunkList s)).map (fun b => (100 * b).tdiv T) =
      st.pubs ++ (prefixSums st.acc (chunkList s)).map (fun b => 100 * b / T)
    rw [prefixSums_map_floor T hT (chunkList s) st.acc hacc]

/-- Witness for claim C5 at a concrete input: a five-byte source copied with
a total size hint of ten bytes. -/
theorem copySingleFile_chunk_progress_witness :
    ((0 : Int) < 10 ∧ (0 : Int) ≤ demoSt.acc ∧
      openPairOk (createDirectory demoSt (["out", "c.txt"].dropLast)).fs
        ["d", "f.txt"] ["out", "c.txt"] = true ∧
      lookup (createDirectory demoSt (["out", "c.txt"].dropLast)).fs
        ["d", "f.txt"] = some (.file 5) ∧
      ¬ ["out", "c.txt"] <+: ["d", "f.txt"] ∧
      ¬ ["d", "f.txt"] <+: ["out", "c.txt"]) ∧
    ((copySingleFile happyEnv ["d", "f.txt"] ["out", "c.txt"] 10 none none
        demoSt).2 = .completed ∧
      (copySingleFile happyEnv ["d", "f.txt"] ["out", "c.txt"] 10 none none
        demoSt).1.acc = demoSt.acc + ((chunkList 5).sum : Int) ∧
      (chunkList 5).sum = 5 ∧
      (copySingleFile happyEnv ["d", "f.txt"] ["out", "c.txt"] 10 none none
        demoSt).1.pubs =
        demoSt.pubs ++ (prefixSums demoSt.acc (chunkList 5)).map
          (fun b => 100 * b / 10) ∧
      List.Chain' (fun a b => a ≤ b)
        ((prefixSums demoSt.acc (chunkList 5)).map (fun b => 100 * b / 10))) :=
  ⟨⟨by decide, by decide, rfl, rfl, by decide, by decide⟩,
   copySingleFile_chunk_progress ["d", "f.txt"] ["out", "c.txt"] 10 demoSt 5
     (by decide) (by decide) rfl rfl (by decide) (by decide)⟩

theorem chunkLoop_abort (g : Nat → Bool) (toFile : Comps) (T : Int) :
    ∀ (chunks : List Nat) (w : Nat) (st : CopySt),
      (∃ i, i < chunks.length ∧ g (st.checks + i) = true) →
      (chunkLoop (abortEnv g) toFile T chunks w st).2 = .aborted ∧
      (chunkLoop (abortEnv g) toFile T chunks w st).1.pct = -1 ∧
      ∃ t, (chunkLoop (abortEnv g) toFile T chunks w st).1.fs = eraseAt t toFile
  | [], _, st, h => by
    obtain ⟨i, hi, _⟩ := h
    simp at hi
  | c :: rest, w, st, h => by
    cases hg : g st.checks with
    | true =>
      simp only [chunkLoop, abortEnv, hg, if_true]
      exact ⟨trivial, rfl, ⟨st.fs, rfl⟩⟩
    | false =>
      obtain ⟨i, hi, hgi⟩ := h
      have hi0 : i ≠ 0 := by
        rintro rfl
        rw [Nat.add_zero, hg] at hgi
        exact Bool.noConfusion hgi
      obtain ⟨j, rfl⟩ := Nat.exists_eq_succ_of_ne_zero hi0
      have hj : j < rest.length := by simpa using hi
      have hgj : g (st.checks + 1 + j) = true := by
        have e : st.checks + 1 + j = st.checks + (j + 1) := by omega
        rw [e]
        exact hgi
      simp only [chunkLoop, abortEnv, hg, Bool.false_eq_true, if_false, if_true]
      by_cases hT : T > 0
      · simp only [if_pos hT, storePct]
        exact chunkLoop_abort g toFile T rest (w + c) _ ⟨j, hj, hgj⟩
      · simp only [if_neg hT]
        exact chunkLoop_abort g toFile T rest (w + c) _ ⟨j, hj, hgj⟩

/-- Claim C2: a copy of a file larger than one chunk whose abort flag is
observed set at one of the chunk checkpoints before completion removes the
partially written destination, publishes minus one and returns the aborted
outcome, which the caller receives without any error signal; afterwards the
destination path does not exist and the published percentage is minus one. -/
theorem copySingleFile_cancellation (g : Nat → Bool) (fromFile toFile : Comps)
    (T : Int) (st : CopySt) (s : Nat)
    (hok : openPairOk (createDirectory st toFile.dropLast).fs fromFile toFile = true)
    (hs : lookup (createDirectory st toFile.dropLast).fs fromFile = some (.file s))
    (hpf : ¬ toFile <+: fromFile) (hpf2 : ¬ fromFile <+: toFile)
    (hto : toFile ≠ [])
    (hbig : COPY_BUFFER_SIZE < s)
    (habort : ∃ i, i < (chunkList s).length ∧ g (st.checks + i) = true) :
    (copySingleFile (abortEnv g) fromFile toFile T none none st).2 = .aborted ∧
    lookup (copySingleFile (abortEnv g) fromFile toFile T none none st).1.fs
      toFile = none ∧
    (copySingleFile (abortEnv g) fromFile toFile T none none st).1.pct = -1 := by
  set stD := createDirectory st toFile.dropLast with hstD
  have hopen : openLoop (abortEnv g) (openPairOk stD.fs fromFile toFile) 11 0 stD =
      ({ stD with opens := stD.opens + 1 }, true) := by
    rw [hok]
    exact openLoop_first (abortEnv g) _ 10 0 rfl
  have hsrc : srcSizeOf (setFileAt stD.fs toFile 0) fromFile = s := by
    unfold srcSizeOf
    rw [lookup_setFileAt_incomp toFile fromFile stD.fs 0 hpf hpf2, hs]
  simp only [copySingleFile, ← hstD, hopen]
  simp only [openLogDir, Bool.true_eq_false, if_false, hsrc]
  obtain ⟨fD, dD, hD⟩ := createDirectory_shape st toFile.dropLast
  rw [hstD, hD]
  have hmain := chunkLoop_abort g toFile T (chunkList s) 0
    { st with fs := setFileAt fD toFile 0, diags := dD, opens := st.opens + 1 }
    habort
  cases hres : chunkLoop (abortEnv g) toFile T (chunkList s) 0
      { st with fs := setFileAt fD toFile 0, diags := dD, opens := st.opens + 1 } with
  | mk st' status =>
    rw [hres] at hmain
    obtain ⟨h2, hpct, t, hfs⟩ := hmain
    cases status with
    | completed => exact absurd h2 (by simp)
    | openGaveUp => exact absurd h2 (by simp)
    | writeError => exact absurd h2 (by simp)
    | aborted =>
      refine ⟨rfl, ?_, hpct⟩
      rw [hfs]
      exact lookup_eraseAt_self toFile t hto

/-- Witness for claim C2 at a concrete input: a forty-thousand-byte source,
larger than the sixteen-kilobyte chunk, with the abort flag raised at the
first chunk checkpoint. -/
theorem copySingleFile_cancellation_witness :
    (openPairOk (createDirectory demoSt (["out", "c.bin"].dropLast)).fs
        ["d", "big.bin"] ["out", "c.bin"] = true ∧
      lookup (createDirectory demoSt (["out", "c.bin"].dropLast)).fs
        ["d", "big.bin"] = some (.file 40000) ∧
      ¬ ["out", "c.bin"] <+: ["d", "big.bin"] ∧
      ¬ ["d", "big.bin"] <+: ["out", "c.bin"] ∧
      ["out", "c.bin"] ≠ ([] : Comps) ∧
      COPY_BUFFER_SIZE < 40000 ∧
      (∃ i, i < (chunkList 40000).length ∧
        (fun _ => true : Nat → Bool) (demoSt.checks + i) = true)) ∧
    ((copySingleFile (abortEnv (fun _ => true)) ["d", "big.bin"] ["out", "c.bin"]
        40000 none none demoSt).2 = .aborted ∧
      lookup (copySingleFile (abortEnv (fun _ => true)) ["d", "big.bin"]
        ["out", "c.bin"] 40000 none none demoSt).1.fs ["out", "c.bin"] = none ∧
      (copySingleFile (abortEnv (fun _ => true)) ["d", "big.bin"] ["out", "c.bin"]
        40000 none none demoSt).1.pct = -1) :=
  ⟨⟨rfl, rfl, by decide, by decide, by decide, by decide,
    ⟨0, chunkList_length_pos 40000 (by decide), rfl⟩⟩,
   copySingleFile_cancellation (fun _ => true) ["d", "big.bin"] ["out", "c.bin"]
     40000 demoSt 40000 rfl rfl (by decide) (by decide) (by decide) (by decide)
     ⟨0, chunkList_length_pos 40000 (by decide), rfl⟩⟩

theorem mem_delEnt : ∀ {cs : List (String × FsTree)} {n : String}
    {e : String × FsTree}, e ∈ delEnt cs n → e ∈ cs := by
  intro cs
  induction cs with
  | nil => intro n e h; simp [delEnt] at h
  | cons x xs ih =>
    intro n e h
    by_cases hx : x.1 = n
    · simp only [delEnt, if_pos hx] at h
      exact List.mem_cons_of_mem x (ih h)
    · simp only [delEnt, if_neg hx] at h
      rcases List.mem_cons.mp h with h1 | h2
      · rw [h1]; exact List.mem_cons_self x xs
      · exact List.mem_cons_of_mem x (ih h2)

theorem delEnt_sublist : ∀ (cs : List (String × FsTree)) (n : String),
    List.Sublist (delEnt cs n) cs
  | [], _ => List.Sublist.refl []
  | e :: es, n => by
    by_cases he : e.1 = n
    · simp only [delEnt, if_pos he]
      exact List.Sublist.cons e (delEnt_sublist es n)
    · simp only [delEnt, if_neg he]
      exact List.Sublist.cons₂ e (delEnt_sublist es n)

theorem nodup_delEnt {cs : List (String × FsTree)} {n : String}
    (h : (cs.map Prod.fst).Nodup) : ((delEnt cs n).map Prod.fst).Nodup :=
  List.Nodup.sublist (List.Sublist.map Prod.fst (delEnt_sublist cs n)) h

theorem mem_delEnt_ne : ∀ {cs : List (String × FsTree)} {n : String}
    {e : String × FsTree}, (cs.map Prod.fst).Nodup → e ∈ delEnt cs n → e.1 ≠ n := by
  intro cs
  induction cs with
  | nil => intro n e _ h; simp [delEnt] at h
  | cons x xs ih =>
    intro n e hnd h
    simp only [List.map_cons, List.nodup_cons] at hnd
    by_cases hx : x.1 = n
    · simp only [delEnt, if_pos hx] at h
      intro hc
      exact hnd.1 (by rw [hx, ← hc]; exact List.mem_map_of_mem Prod.fst (mem_delEnt h))
    · simp only [delEnt, if_neg hx] at h
      rcases List.mem_cons.mp h with h1 | h2
      · rw [h1]; exact hx
      · exact ih hnd.2 h2

theorem forestSize_delEnt_le : ∀ (cs : List (String × FsTree)) (n : String),
    forestSize (delEnt cs n) ≤ forestSize cs
  | [], _ => le_refl 0
  | e :: es, n => by
    by_cases he : e.1 = n
    · simp only [delEnt, if_pos he, forestSize]
      have h1 := forestSize_delEnt_le es n
      omega
    · simp only [delEnt, if_neg he, forestSize]
      have h1 := forestSize_delEnt_le es n
      omega

theorem treeSize_mem_le : ∀ {cs : List (String × FsTree)} {e : String × FsTree},
    e ∈ cs → treeSize e.2 ≤ forestSize cs := by
  intro cs
  induction cs with
  | nil => intro e h; simp at h
  | cons x xs ih =>
    intro e h
    rcases List.mem_cons.mp h with h1 | h2
    · rw [h1]
      simp only [forestSize]
      omega
    · have h3 := ih h2
      simp only [forestSize]
      omega

theorem cleanTree_entry {cs : List (String × FsTree)} {e : String × FsTree}
    (h : cleanForest cs = true) (he : e ∈ cs) : cleanTree e.2 = true := by
  induction cs with
  | nil => simp at he
  | cons x xs ih =>
    simp only [cleanForest, Bool.and_eq_true] at h
    rcases List.mem_cons.mp he with h1 | h2
    · rw [h1]; exact h.1
    · exact ih h.2 h2

theorem lookup_eraseAt_child : ∀ (p : Comps) (t : FsTree) (n : String)
    (r : Bool) (cs : List (String × FsTree)),
    lookup t p = some (.dir r cs) →
    lookup (eraseAt t (p ++ [n])) p = some (.dir r (delEnt cs n))
  | [], t, n, r, cs, hl => by
    simp only [lookup, Option.some_inj] at hl
    subst hl
    rfl
  | m :: p', t, n, r, cs, hl => by
    cases t with
    | file s => simp [lookup] at hl
    | other => simp [lookup] at hl
    | dir r0 cs0 =>
      simp only [lookup] at hl
      cases hfe : findEnt cs0 m with
      | none => rw [hfe] at hl; simp at hl
      | some e =>
        rw [hfe] at hl
        have hrec := lookup_eraseAt_child p' e.2 n r cs hl
        cases p' with
        | nil =>
          show lookup (FsTree.dir r0 (updList cs0 m (fun c => eraseAt c ([] ++ [n]))))
            [m] = some (.dir r (delEnt cs n))
          simp only [lookup, findEnt_updList_self, hfe, Option.map_some']
          simp only [lookup] at hrec
          exact hrec
        | cons x xs =>
          show lookup (FsTree.dir r0
              (updList cs0 m (fun c => eraseAt c ((x :: xs) ++ [n]))))
            (m :: x :: xs) = some (.dir r (delEnt cs n))
          simp only [lookup, findEnt_updList_self, hfe, Option.map_some']
          exact hrec

theorem eraseAt_eraseAt_deep : ∀ (p : Comps) (w : Comps) (t : FsTree),
    p ≠ [] → w ≠ [] → eraseAt (eraseAt t (p ++ w)) p = eraseAt t p
  | [], _, _, hp, _ => absurd rfl hp
  | _ :: _, [], _, _, hw => absurd rfl hw
  | [m], x :: xs, t, _, _ => by
    cases t with
    | file s => rfl
    | other => rfl
    | dir r cs =>
      show FsTree.dir r (delEnt (updList cs m (fun c => eraseAt c (x :: xs))) m) =
        FsTree.dir r (delEnt cs m)
      rw [delEnt_updList]
  | m :: p1 :: p2, x :: xs, t, _, _ => by
    cases t with
    | file s => rfl
    | other => rfl
    | dir r cs =>
      show FsTree.dir r
          (updList (updList cs m (fun c => eraseAt c ((p1 :: p2) ++ (x :: xs)))) m
            (fun c => eraseAt c (p1 :: p2))) =
        FsTree.dir r (updList cs m (fun c => eraseAt c (p1 :: p2)))
      rw [updList_updList]
      exact congrArg (fun z => FsTree.dir r z)
        (updList_congr (fun c =>
          eraseAt_eraseAt_deep (p1 :: p2) (x :: xs) c (by simp) (by simp)))

theorem delSteps_run (lo : Bool) {a b : CopySt × List Comps}
    (h : DelSteps lo a b) (hb : b.2 = []) :
    ∃ fuel, deleteLoop lo fuel a.1 a.2 = some b.1 := by
  induction h using Relation.ReflTransGen.head_induction_on with
  | refl =>
    refine ⟨0, ?_⟩
    obtain ⟨stb, stackb⟩ := b
    simp only at hb
    subst hb
    rfl
  | head hstep hrest ih =>
    obtain ⟨fuel, hf⟩ := ih
    rename_i x c
    obtain ⟨stx, stackx⟩ := x
    cases stackx with
    | nil => simp [delNext] at hstep
    | cons q rest =>
      simp only [delNext] at hstep
      refine ⟨fuel + 1, ?_⟩
      show deleteLoop lo (fuel + 1) stx (q :: rest) = some b.1
      have hc : deleteStep lo stx q rest = c := Option.some_inj.mp hstep
      subst hc
      exact hf

theorem delSteps_clean (lo : Bool) : ∀ (N : Nat) (τ : FsTree) (st : CopySt)
    (p : Comps) (rest : List Comps),
    treeSize τ ≤ N → p ≠ [] → lookup st.fs p = some τ → cleanTree τ = true →
    ∃ lg, DelSteps lo (st, p :: rest)
      ({ st with fs := eraseAt st.fs p, srcLog := lg }, rest) := by
  intro N
  induction N with
  | zero =>
    intro τ st p rest hN _ _ _
    have h1 : 1 ≤ treeSize τ := by cases τ <;> simp [treeSize]
    omega
  | succ N ih =>
    intro τ st p rest hN hp hl hclean
    cases τ with
    | other => simp [cleanTree] at hclean
    | file s =>
      refine ⟨if lo then st.srcLog ++ [p] else st.srcLog,
        Relation.ReflTransGen.single ?_⟩
      show delNext lo (st, p :: rest) = some _
      simp [delNext, deleteStep, hl]
    | dir r cs =>
      simp only [cleanTree, Bool.and_eq_true, decide_eq_true_eq] at hclean
      obtain ⟨⟨hr, hnd⟩, hcf⟩ := hclean
      subst hr
      by_cases hemp : cs.isEmpty = true
      · have hcs : cs = [] := by simpa using hemp
        subst hcs
        refine ⟨st.srcLog, Relation.ReflTransGen.single ?_⟩
        show delNext lo (st, p :: rest) = some _
        simp [delNext, deleteStep, hl]
      · have inner : ∀ (ns : List String), ∀ (cs1 : List (String × FsTree))
            (st1 : CopySt) (tail : List Comps),
            ns.Nodup → (cs1.map Prod.fst).Nodup →
            lookup st1.fs p = some (.dir true cs1) →
            (∀ n ∈ ns, (findEnt cs1 n).isSome = true) →
            (∀ e ∈ cs1, cleanTree e.2 = true) →
            forestSize cs1 ≤ N →
            ∃ lg2 fs2, DelSteps lo (st1, ns.map (fun n => p ++ [n]) ++ tail)
                ({ st1 with fs := fs2, srcLog := lg2 }, tail) ∧
              (∃ cs2, lookup fs2 p = some (.dir true cs2) ∧
                (cs2.map Prod.fst).Nodup ∧ ∀ e ∈ cs2, e ∈ cs1 ∧ e.1 ∉ ns) ∧
              eraseAt fs2 p = eraseAt st1.fs p := by
          intro ns
          induction ns with
          | nil =>
            intro cs1 st1 tail _ hnd1 hl1 _ _ _
            exact ⟨st1.srcLog, st1.fs, Relation.ReflTransGen.refl,
              ⟨cs1, hl1, hnd1, fun e he => ⟨he, by simp⟩⟩, rfl⟩
          | cons n ns' ihn =>
            intro cs1 st1 tail hndns hnd1 hl1 hfind hce hM
            have hfn : (findEnt cs1 n).isSome = true := hfind n (by simp)
            obtain ⟨e, hfe⟩ := Option.isSome_iff_exists.mp hfn
            have hen : e.1 = n := findEnt_name hfe
            have hem : e ∈ cs1 := findEnt_mem hfe
            have hcl : lookup st1.fs (p ++ [n]) = some e.2 := by
              have h2 := lookup_child hl1 (by rw [hen]; exact hfe)
              rw [hen] at h2
              exact h2
            have hclean_e : cleanTree e.2 = true := hce e hem
            have hsize_e : treeSize e.2 ≤ N := le_trans (treeSize_mem_le hem) hM
            obtain ⟨lg1, hstep1⟩ := ih e.2 st1 (p ++ [n])
              (ns'.map (fun n => p ++ [n]) ++ tail) hsize_e (by simp) hcl hclean_e
            have hl2 : lookup (eraseAt st1.fs (p ++ [n])) p =
                some (.dir true (delEnt cs1 n)) :=
              lookup_eraseAt_child p st1.fs n true cs1 hl1
            have hnd2 : ((delEnt cs1 n).map Prod.fst).Nodup := nodup_delEnt hnd1
            have hfind2 : ∀ m ∈ ns', (findEnt (delEnt cs1 n) m).isSome = true := by
              intro m hm
              have hmn : m ≠ n := by
                rintro rfl
                exact (List.nodup_cons.mp hndns).1 hm
              rw [findEnt_delEnt_ne hmn]
              exact hfind m (by simp [hm])
            have hce2 : ∀ e2 ∈ delEnt cs1 n, cleanTree e2.2 = true :=
              fun e2 he2 => hce e2 (mem_delEnt he2)
            have hM2 : forestSize (delEnt cs1 n) ≤ N :=
              le_trans (forestSize_delEnt_le cs1 n) hM
            obtain ⟨lg2, fs2, hsteps2, ⟨cs2, hlcs2, hndcs2, hmem2⟩, herase2⟩ :=
              ihn (delEnt cs1 n)
                { st1 with fs := eraseAt st1.fs (p ++ [n]), srcLog := lg1 } tail
                (List.nodup_cons.mp hndns).2 hnd2 hl2 hfind2 hce2 hM2
            refine ⟨lg2, fs2, ?_, ⟨cs2, hlcs2, hndcs2, ?_⟩, ?_⟩
            · exact Relation.ReflTransGen.trans hstep1 hsteps2
            · intro e2 he2
              obtain ⟨hin, hne⟩ := hmem2 e2 he2
              refine ⟨mem_delEnt hin, ?_⟩
              simp only [List.mem_cons, not_or]
              exact ⟨mem_delEnt_ne hnd1 hin, hne⟩
            · rw [herase2]
              show eraseAt (eraseAt st1.fs (p ++ [n])) p = eraseAt st1.fs p
              exact eraseAt_eraseAt_deep p [n] st1.fs hp (by simp)
        have hndns : ((cs.map Prod.fst).reverse).Nodup := by
          rw [List.nodup_reverse]
          exact hnd
        have hfind0 : ∀ n ∈ (cs.map Prod.fst).reverse,
            (findEnt cs n).isSome = true := by
          intro n hn
          rw [List.mem_reverse] at hn
          obtain ⟨e, hem, he1⟩ := List.mem_map.mp hn
          rw [← he1, findEnt_of_nodup_mem hnd hem]
          rfl
        have hce0 : ∀ e ∈ cs, cleanTree e.2 = true :=
          fun e he => cleanTree_entry hcf he
        have hM0 : forestSize cs ≤ N := by
          have h2 : treeSize (FsTree.dir true cs) = 1 + forestSize cs := rfl
          omega
        obtain ⟨lg2, fs2, hsteps2, ⟨cs2, hlcs2, _, hmem2⟩, herase2⟩ :=
          inner (cs.map Prod.fst).reverse cs st (p :: rest) hndns hnd hl hfind0
            hce0 hM0
        have hcs2nil : cs2 = [] := by
          cases cs2 with
          | nil => rfl
          | cons x xs =>
            exfalso
            obtain ⟨hin, hnotin⟩ := hmem2 x (by simp)
            exact hnotin (by
              rw [List.mem_reverse]
              exact List.mem_map_of_mem Prod.fst hin)
        rw [hcs2nil] at hlcs2
        refine ⟨lg2, ?_⟩
        have hstack : (cs.map (fun e => p ++ [e.1])).reverse =
            ((cs.map Prod.fst).reverse).map (fun n => p ++ [n]) := by
          rw [← List.map_reverse, ← List.map_reverse, List.map_map]
          rfl
        have hpush : DelSteps lo (st, p :: rest)
            (st, ((cs.map Prod.fst).reverse).map (fun n => p ++ [n]) ++
              (p :: rest)) := by
          refine Relation.ReflTransGen.single ?_
          show delNext lo (st, p :: rest) = some _
          rw [← hstack]
          simp [delNext, deleteStep, hl, hemp]
        have hfinal : DelSteps lo ({ st with fs := fs2, srcLog := lg2 }, p :: rest)
            ({ st with fs := eraseAt st.fs p, srcLog := lg2 }, rest) := by
          refine Relation.ReflTransGen.single ?_
          show delNext lo _ = some _
          simp only [delNext, deleteStep]
          rw [show lookup ({ st with fs := fs2, srcLog := lg2 } : CopySt).fs p =
            some (.dir true []) from hlcs2]
          simp [herase2]
        exact Relation.ReflTransGen.trans hpush
          (Relation.ReflTransGen.trans hsteps2 hfinal)

/-- Claim C3: throughout the stack-driven traversal a directory is removed by
a step only when it is readable and its enumeration finds zero children, so
never before all of its descendants have been removed; and on a clean
directory tree of depth at least three the loop terminates with the root
gone and no diagnostics added. -/
theorem deleteFileOrDirectory_postorder (p : UPath) (st : CopySt) (τ : FsTree)
    (hslash : p.dirSlash = true) (hp : p.comps ≠ [])
    (hl : lookup st.fs p.comps = some τ) (hclean : cleanTree τ = true)
    (hdepth : 3 ≤ depth τ) :
    (∀ (lo : Bool) (st1 : CopySt) (q : Comps) (rest : List Comps) (r : Bool)
        (cs : List (String × FsTree)),
        lookup st1.fs q = some (.dir r cs) →
        (deleteStep lo st1 q rest).1.fs ≠ st1.fs → r = true ∧ cs = []) ∧
    ∃ fuel st', deleteFileOrDirectory fuel p none st = some st' ∧
      lookup st'.fs p.comps = none ∧ st'.diags = st.diags := by
  constructor
  · intro lo st1 q rest r cs hlq hrm
    cases r with
    | false =>
      simp only [deleteStep, hlq] at hrm
      exact absurd rfl hrm
    | true =>
      simp only [deleteStep, hlq] at hrm
      by_cases he : cs.isEmpty = true
      · exact ⟨rfl, by simpa using he⟩
      · rw [if_neg he] at hrm
        exact absurd rfl hrm
  · obtain ⟨lg, hsteps⟩ := delSteps_clean false (treeSize τ) τ st p.comps []
      (le_refl _) hp hl hclean
    obtain ⟨fuel, hrun⟩ := delSteps_run false hsteps rfl
    refine ⟨fuel, { st with fs := eraseAt st.fs p.comps, srcLog := lg },
      ?_, ?_, rfl⟩
    · unfold deleteFileOrDirectory
      rw [hslash]
      simp only [Bool.true_eq_false, if_false]
      exact hrun
    · exact lookup_eraseAt_self p.comps _ hp

/-- Witness for claim C3 at a concrete input: a depth-three tree, a chain of
two directories above one regular file. -/
theorem deleteFileOrDirectory_postorder_witness :
    ((UPath.mk ["a"] true).dirSlash = true ∧ (["a"] : Comps) ≠ [] ∧
      lookup delDemoSt.fs ["a"] =
        some (.dir true [("b", .dir true [("c", .file 7)])]) ∧
      cleanTree (.dir true [("b", .dir true [("c", .file 7)])]) = true ∧
      3 ≤ depth (.dir true [("b", .dir true [("c", .file 7)])])) ∧
    ((∀ (lo : Bool) (st1 : CopySt) (q : Comps) (rest : List Comps) (r : Bool)
        (cs : List (String × FsTree)),
        lookup st1.fs q = some (.dir r cs) →
        (deleteStep lo st1 q rest).1.fs ≠ st1.fs → r = true ∧ cs = []) ∧
      ∃ fuel st',
        deleteFileOrDirectory fuel (UPath.mk ["a"] true) none delDemoSt =
          some st' ∧
        lookup st'.fs ["a"] = none ∧ st'.diags = delDemoSt.diags) :=
  ⟨⟨rfl, by decide, rfl, rfl, by decide⟩,
   deleteFileOrDirectory_postorder (UPath.mk ["a"] true) delDemoSt
     (.dir true [("b", .dir true [("c", .file 7)])]) rfl (by decide) rfl rfl
     (by decide)⟩

theorem createDirectory_fixed {st : CopySt} {p : Comps} {τ : FsTree}
    (h : lookup st.fs p = some τ) : createDirectory st p = st := by
  unfold createDirectory
  apply foldl_fixed
  intro i _
  obtain ⟨u, hu⟩ := lookup_take_isSome h (i + 1)
  exact createSingleDirectory_of_lookup hu

/-- Counterexample to claim C1 as stated: a batch whose pattern expansion is
empty completes successfully with neither abort nor failure, yet the shared
percentage is never set to one hundred; it stays at its initial minus one.
The final store of one hundred in the traversal engine runs only for
top-level calls, and a batch copy always passes the shared accumulator, so
none of its calls is top-level and no component of the batch ever stores one
hundred on its own for an empty expansion. -/
theorem copyFileOrDirectoryByPattern_counterexample :
    copyFileOrDirectoryByPattern happyEnv 1 [] (UPath.mk ["out"] true) none none
      demoSt = some { demoSt with acc := 0 } ∧
    ({ demoSt with acc := 0 } : CopySt).pct = -1 ∧
    ¬ ((-1 : Int) = 100) :=
  ⟨rfl, rfl, by decide⟩

/-- Claim C1, amended: a nonempty batch that completes successfully does end
with the shared percentage at exactly one hundred, but through the per-file
aggregate publication of the traversal loop, whose final value is one hundred
because the shared accumulator has then reached the precomputed combined
total, not through the final top-level store of one hundred, which a batch
copy never executes.  Stated for a batch of one regular-file match copied
into a separator-terminated destination directory in which the match's base
name is free. -/
theorem copyFileOrDirectoryByPattern_full_progress (m toDir : UPath)
    (st : CopySt) (s : Nat) (rD : Bool) (csD : List (String × FsTree)) (fuel : Nat)
    (hdir : toDir.dirSlash = true) (hpos : 0 < s)
    (hms : lookup st.fs m.comps = some (.file s))
    (hdirA : lookup (createDirectory { st with acc := 0 } toDir.comps).fs
        toDir.comps = some (.dir rD csD))
    (hfresh : lookup (createDirectory { st with acc := 0 } toDir.comps).fs
        (toDir.comps ++ [getNameFromPath m.comps]) = none)
    (hpfa : ¬ (toDir.comps ++ [getNameFromPath m.comps]) <+: m.comps)
    (hpfb : ¬ m.comps <+: (toDir.comps ++ [getNameFromPath m.comps])) :
    ∃ st', copyFileOrDirectoryByPattern happyEnv (fuel + 1) [m] toDir none none
        st = some st' ∧ st'.pct = 100 := by
  have hTs : getTotalSize st.fs m.comps = s := by
    unfold getTotalSize
    rw [hms]
  have hkind0 : kindAt ({ st with acc := 0 } : CopySt).fs m.comps =
      some (.file s) := by
    show kindAt st.fs m.comps = some (.file s)
    unfold kindAt
    rw [hms]
    rfl
  have hdrop : (toDir.comps ++ [getNameFromPath m.comps]).dropLast =
      toDir.comps := by
    simp
  set stA := createDirectory { st with acc := 0 } toDir.comps with hstA
  have hmsA : lookup stA.fs m.comps = some (.file s) :=
    lookup_file_of_kind (kindAt_createDirectory_pres toDir.comps hkind0)
  obtain ⟨fA, dA, hA⟩ := createDirectory_shape { st with acc := 0 } toDir.comps
  rw [← hstA] at hA
  have haccA : stA.acc = 0 := by rw [hA]
  have hfix1 : createDirectory { stA with checks := stA.checks + 1 }
      toDir.comps = { stA with checks := stA.checks + 1 } :=
    createDirectory_fixed (τ := .dir rD csD) hdirA
  have hok2 : openPairOk stA.fs m.comps
      (toDir.comps ++ [getNameFromPath m.comps]) = true := by
    simp only [openPairOk, hfresh, hdrop, hdirA, isFile, hmsA]
    rfl
  have hms0 : lookup ({ stA with checks := stA.checks + 1 } : CopySt).fs
      m.comps = some (.file s) := hmsA
  have hT0 : (0 : Int) < 0 + (s : Int) := by omega
  have hok3 : openPairOk
      (createDirectory { stA with checks := stA.checks + 1 }
        (toDir.comps ++ [getNameFromPath m.comps]).dropLast).fs
      m.comps (toDir.comps ++ [getNameFromPath m.comps]) = true := by
    rw [hdrop, hfix1]
    exact hok2
  have hs3 : lookup
      (createDirectory { stA with checks := stA.checks + 1 }
        (toDir.comps ++ [getNameFromPath m.comps]).dropLast).fs
      m.comps = some (.file s) := by
    rw [hdrop, hfix1]
    exact hmsA
  have hsingle := copySingleFile_happy m.comps
    (toDir.comps ++ [getNameFromPath m.comps]) (0 + (s : Int)) hT0
    { stA with checks := stA.checks + 1 } s hok3 hs3 hpfa hpfb
  have hsne : (0 : Int) + (s : Int) ≠ 0 := by omega
  have hpct100 : ((((copySingleFile happyEnv m.comps
      (toDir.comps ++ [getNameFromPath m.comps]) (0 + (s : Int)) none none
      { stA with checks := stA.checks + 1 }).1).acc) * 100).tdiv
      (0 + (s : Int)) = 100 := by
    rw [hsingle]
    show ((({ stA with checks := stA.checks + 1 } : CopySt).acc + (s : Int)) *
      100).tdiv (0 + (s : Int)) = 100
    show ((stA.acc + (s : Int)) * 100).tdiv (0 + (s : Int)) = 100
    rw [haccA]
    rw [Int.tdiv_eq_ediv (by positivity) (by omega)]
    exact Int.mul_ediv_cancel_left 100 hsne
  have hmain : copyFileOrDirectoryByPattern happyEnv (fuel + 1) [m] toDir
      none none st = some (storePct
        ((((copySingleFile happyEnv m.comps
          (toDir.comps ++ [getNameFromPath m.comps]) (0 + (s : Int)) none none
          { stA with checks := stA.checks + 1 }).1).acc * 100).tdiv
          (0 + (s : Int)))
        ((copySingleFile happyEnv m.comps
          (toDir.comps ++ [getNameFromPath m.comps]) (0 + (s : Int)) none none
          { stA with checks := stA.checks + 1 }).1)) := by
    simp only [copyFileOrDirectoryByPattern, List.foldl_cons, List.foldl_nil,
      hTs, copyByPatternGo]
    simp only [copyFileOrDirectory, Bool.false_eq_true, if_false, hdir,
      Bool.true_eq_false, ← hstA]
    simp only [copyLoop, happyEnv, Bool.false_eq_true, if_false, hmsA,
      getParentDirFromPath, hdir, if_true, hdrop, hfix1]
    rw [if_pos hT0]
    rfl
  exact ⟨_, hmain, by simp only [storePct]; exact hpct100⟩

/-- Witness for the amended claim C1 at a concrete input: one five-byte file
match copied into a fresh destination directory ends with the shared
percentage at one hundred. -/
theorem copyFileOrDirectoryByPattern_full_progress_witness :
    ((UPath.mk ["out"] true).dirSlash = true ∧ 0 < 5 ∧
      lookup demoSt.fs ["d", "f.txt"] = some (.file 5) ∧
      lookup (createDirectory { demoSt with acc := 0 } ["out"]).fs ["out"] =
        some (.dir true []) ∧
      lookup (createDirectory { demoSt with acc := 0 } ["out"]).fs
        (["out"] ++ [getNameFromPath ["d", "f.txt"]]) = none ∧
      ¬ (["out"] ++ [getNameFromPath ["d", "f.txt"]]) <+: ["d", "f.txt"] ∧
      ¬ ["d", "f.txt"] <+: (["out"] ++ [getNameFromPath ["d", "f.txt"]])) ∧
    (∃ st', copyFileOrDirectoryByPattern happyEnv (0 + 1)
        [UPath.mk ["d", "f.txt"] false] (UPath.mk ["out"] true) none none
        demoSt = some st' ∧ st'.pct = 100) :=
  ⟨⟨rfl, by decide, rfl, rfl, rfl, by decide, by decide⟩,
   copyFileOrDirectoryByPattern_full_progress (UPath.mk ["d", "f.txt"] false)
     (UPath.mk ["out"] true) demoSt 5 true [] 0 rfl (by decide) rfl rfl rfl
     (by decide) (by decide)⟩

end Ult
